import Mathlib

/-!
Shallow embedding of the STV election engine in src/election.py
(CMU-Senate/fair-ranked-voting), together with theorems settling the
frozen claims about it.

Modelling conventions:
* Candidates are identified by their uid string (equality and hashing in
  the source are by uid only); the No-Confidence pseudo-candidate is the
  uid "NC".
* Python float vote values are modelled as rationals.
* Python sets/dicts keyed by candidates are modelled as lists preserving
  insertion order; the keys of a tracker are pairwise distinct by
  construction, so list length agrees with set cardinality.
* The deep copies taken by `compute_results` are the identity in this
  functional embedding; mutation of ballots becomes explicit state
  passing.
-/

set_option maxHeartbeats 1000000

abbrev Cand := String

def ncUid : Cand := "NC"

/-- isinstance(candidate, NoConfidence) in the source: the NoConfidence
class fixes uid = "NC". -/
def isNC (c : Cand) : Bool := c = ncUid

/-- Ballot: ranked candidates, fractional vote value, cursor rank
(`_preferred_active_rank`). -/
structure Ballot where
  candidates : List Cand
  vote_value : ℚ
  rank : Nat
deriving DecidableEq, Repr

/-- Ballot.candidate_for_rank: the candidate at the given rank, or none. -/
def Ballot.candidateForRank (b : Ballot) (r : Nat) : Option Cand :=
  b.candidates.get? r

/-- Ballot.preferred_active_candidate. -/
def Ballot.preferredActive (b : Ballot) : Option Cand :=
  b.candidateForRank b.rank

/-- Ballot.eliminate_preferred_candidate: advance the cursor; no-op (with a
reported error) when the ballot has no active candidate. -/
def Ballot.eliminatePreferred (b : Ballot) : Ballot :=
  match b.preferredActive with
  | none => b
  | some _ => { b with rank := b.rank + 1 }

/-- VoteTracker: total votes cast plus per-candidate values
(`_votes_for_candidate`), as an insertion-ordered association list. -/
structure VoteTracker where
  votes_cast : ℚ
  votes_for : List (Cand × ℚ)
deriving DecidableEq, Repr

def emptyTracker : VoteTracker := { votes_cast := 0, votes_for := [] }

/-- dict.get(candidate, 0.0). -/
def getVal (l : List (Cand × ℚ)) (c : Cand) : ℚ :=
  match l with
  | [] => 0
  | p :: rest => if p.1 = c then p.2 else getVal rest c

/-- Add `v` to the entry of `c`, first inserting `c` with value 0 if it is
missing (mirrors lines 281-285 of election.py). -/
def updateVal (l : List (Cand × ℚ)) (c : Cand) (v : ℚ) : List (Cand × ℚ) :=
  match l with
  | [] => [(c, v)]
  | p :: rest => if p.1 = c then (p.1, p.2 + v) :: rest else p :: updateVal rest c v

/-- VoteTracker.votes_for_candidate. -/
def VoteTracker.votesFor (t : VoteTracker) (c : Cand) : ℚ :=
  getVal t.votes_for c

/-- VoteTracker.cast_vote_for_candidate: rejects negative votes, otherwise
adds the value to the running total and to the candidate's entry. -/
def VoteTracker.cast (t : VoteTracker) (c : Cand) (v : ℚ) : VoteTracker :=
  if v < 0 then t
  else { votes_cast := t.votes_cast + v, votes_for := updateVal t.votes_for c v }

/-- VoteTracker.candidates(): the tracked candidates. -/
def VoteTracker.keys (t : VoteTracker) : List Cand :=
  t.votes_for.map Prod.fst

/-- VoteTracker.candidates_reaching_threshold. -/
def VoteTracker.candidatesReachingThreshold (t : VoteTracker) (cs : List Cand) (thr : ℚ) : List Cand :=
  cs.filter (fun c => thr ≤ t.votesFor c)

/-- One step of the fold in VoteTracker.candidates_with_fewest_votes, with
the source's `-1` sentinel for "fewest votes unset". -/
def fewestStep (t : VoteTracker) (acc : ℚ × List Cand) (c : Cand) : ℚ × List Cand :=
  let isUnset : Prop := acc.1 = -1
  let v := t.votesFor c
  if v ≤ acc.1 ∨ isUnset then
    if v < acc.1 ∨ isUnset then (v, [c]) else (acc.1, acc.2 ++ [c])
  else acc

/-- VoteTracker.candidates_with_fewest_votes. -/
def VoteTracker.candidatesWithFewestVotes (t : VoteTracker) (cs : List Cand) : List Cand :=
  (cs.foldl (fewestStep t) (-1, [])).2

example :
    (VoteTracker.cast (VoteTracker.cast emptyTracker "A" 2) "B" 3).votesFor "A" = 2 := by
  with_unfolding_all decide

example :
    VoteTracker.candidatesWithFewestVotes
      (VoteTracker.cast (VoteTracker.cast emptyTracker "A" 2) "B" 3) ["A", "B"] = ["A"] := by
  with_unfolding_all decide

/-- Fuel-indexed version of the cursor-resolution loop; structural so that
concrete elections evaluate inside the kernel. The fuel never runs out
when `candidates.length ≤ rank + fuel` (shown in skipAux_congr below). -/
def skipAux (ex : List Cand) (b : Ballot) : Nat → Ballot
  | 0 => b
  | n + 1 =>
    match b.preferredActive with
    | none => b
    | some c => if c ∈ ex then skipAux ex b.eliminatePreferred n else b

/-- The cursor-resolution loop at lines 572-582 (and 726-735) of
election.py: advance the cursor while the preferred candidate is among the
excluded (elected or eliminated) candidates. -/
def Ballot.skipExcluded (ex : List Cand) (b : Ballot) : Ballot :=
  skipAux ex b b.candidates.length

/-- Accumulator for the per-round counting pass (lines 569-608). -/
structure TallyOut where
  tracker : VoteTracker
  kept : List Ballot
  exh : List Ballot
  assigned : List (Cand × List Ballot)
deriving DecidableEq, Repr

/-- Lines 585-588: register every not-yet-excluded candidate listed on the
ballot with a vote of 0. -/
def castListed (ex : List Cand) (tr : VoteTracker) (cs : List Cand) : VoteTracker :=
  cs.foldl (fun tr c => if c ∈ ex then tr else tr.cast c 0) tr

/-- ballots_for_candidate[candidate].append(ballot). -/
def addAssigned (l : List (Cand × List Ballot)) (c : Cand) (b : Ballot) : List (Cand × List Ballot) :=
  match l with
  | [] => [(c, [b])]
  | p :: rest => if p.1 = c then (p.1, p.2 ++ [b]) :: rest else p :: addAssigned rest c b

/-- Process one cursor-resolved ballot in the counting pass: register
listed candidates, then either exhaust the ballot (no active candidate, or
value at most 0) or cast its vote and record it. -/
def processResolved (ex : List Cand) (acc : TallyOut) (b1 : Ballot) : TallyOut :=
  match b1.preferredActive with
  | none =>
    { acc with
      tracker := castListed ex acc.tracker b1.candidates,
      exh := acc.exh ++ [b1] }
  | some c =>
    if b1.vote_value ≤ 0 then
      { acc with
        tracker := castListed ex acc.tracker b1.candidates,
        exh := acc.exh ++ [b1] }
    else
      { tracker := (castListed ex acc.tracker b1.candidates).cast c b1.vote_value,
        kept := acc.kept ++ [b1],
        exh := acc.exh,
        assigned := addAssigned acc.assigned c b1 }

/-- Process one active ballot in the counting pass: resolve the cursor,
then count the resolved ballot. -/
def processBallot (ex : List Cand) (acc : TallyOut) (b : Ballot) : TallyOut :=
  processResolved ex acc (Ballot.skipExcluded ex b)

/-- The whole counting pass of one round: lines 569-613 of election.py.
`kept` is ballots_active after the exhausted ballots are removed, `exh` is
ballots_to_exhaust. -/
def tallyPhase (ex : List Cand) (ballots : List Ballot) : TallyOut :=
  ballots.foldl (processBallot ex) { tracker := emptyTracker, kept := [], exh := [], assigned := [] }

/-- Election.droop_quota: votes / (seats + 1) + 1. -/
def droopQuota (seats : Nat) (votes : ℚ) : ℚ :=
  votes / ((seats : ℚ) + 1) + 1

structure Config where
  seats : Nat
  canElimNC : Bool
  canRandom : Bool
  alpha : String
deriving DecidableEq, Repr

/-- ElectionRound. -/
structure ERound where
  threshold : ℚ
  elected : List Cand
  eliminated : List Cand
  randomTiebreak : Bool
  tracker : VoteTracker
deriving DecidableEq, Repr

/-- The mutable state of Election.compute_results between rounds. -/
structure EngineState where
  active : List Ballot
  exhausted : List Ballot
  elected : List Cand
  eliminated : List Cand
  rounds : List ERound
deriving DecidableEq, Repr

theorem eliminatePreferred_candidates (b : Ballot) :
    b.eliminatePreferred.candidates = b.candidates := by
  unfold Ballot.eliminatePreferred
  cases b.preferredActive <;> rfl

theorem eliminatePreferred_rank_le (b : Ballot) :
    b.rank ≤ b.eliminatePreferred.rank := by
  unfold Ballot.eliminatePreferred
  cases b.preferredActive <;> simp

theorem preferredActive_none_of_le (b : Ballot) (h : b.candidates.length ≤ b.rank) :
    b.preferredActive = none := by
  unfold Ballot.preferredActive Ballot.candidateForRank
  exact List.get?_eq_none.mpr h

theorem rank_lt_of_preferredActive (b : Ballot) (c : Cand)
    (h : b.preferredActive = some c) : b.rank < b.candidates.length := by
  obtain ⟨hlt, -⟩ := List.get?_eq_some.mp (h : b.candidates.get? b.rank = some c)
  exact hlt

theorem eliminatePreferred_of_some (b : Ballot) (c : Cand)
    (h : b.preferredActive = some c) :
    b.eliminatePreferred = { b with rank := b.rank + 1 } := by
  unfold Ballot.eliminatePreferred
  rw [h]

theorem skipAux_candidates (ex : List Cand) :
    ∀ (f : Nat) (b : Ballot), (skipAux ex b f).candidates = b.candidates := by
  intro f
  induction f with
  | zero => intro b; rfl
  | succ n ih =>
    intro b
    cases h : b.preferredActive with
    | none => simp only [skipAux, h]
    | some c =>
      by_cases hm : c ∈ ex
      · simp only [skipAux, h, if_pos hm]
        rw [ih, eliminatePreferred_candidates]
      · simp only [skipAux, h, if_neg hm]

theorem skipAux_rank_le (ex : List Cand) :
    ∀ (f : Nat) (b : Ballot), b.rank ≤ (skipAux ex b f).rank := by
  intro f
  induction f with
  | zero => intro b; exact le_refl _
  | succ n ih =>
    intro b
    cases h : b.preferredActive with
    | none => simp only [skipAux, h]; exact le_refl _
    | some c =>
      by_cases hm : c ∈ ex
      · simp only [skipAux, h, if_pos hm]
        exact le_trans (eliminatePreferred_rank_le b) (ih _)
      · simp only [skipAux, h, if_neg hm]
        exact le_refl _

theorem skipAux_stop (ex : List Cand) :
    ∀ (f : Nat) (b : Ballot), b.candidates.length ≤ b.rank + f →
      (skipAux ex b f).preferredActive = none ∨
        ∃ c, (skipAux ex b f).preferredActive = some c ∧ c ∉ ex := by
  intro f
  induction f with
  | zero =>
    intro b hf
    exact Or.inl (preferredActive_none_of_le b (by omega))
  | succ n ih =>
    intro b hf
    cases h : b.preferredActive with
    | none => exact Or.inl (by simp only [skipAux, h])
    | some c =>
      by_cases hm : c ∈ ex
      · simp only [skipAux, h, if_pos hm]
        apply ih
        have hc := eliminatePreferred_candidates b
        have hr2 : b.eliminatePreferred.rank = b.rank + 1 := by
          rw [eliminatePreferred_of_some b c h]
        rw [hc, hr2]
        omega
      · exact Or.inr ⟨c, by simp only [skipAux, h, if_neg hm], hm⟩

theorem skipAux_of_rank_eq (ex : List Cand) :
    ∀ (f : Nat) (b : Ballot), (skipAux ex b f).rank = b.rank → skipAux ex b f = b := by
  intro f
  induction f with
  | zero => intro b _; rfl
  | succ n ih =>
    intro b hr
    cases h : b.preferredActive with
    | none => simp only [skipAux, h]
    | some c =>
      by_cases hm : c ∈ ex
      · exfalso
        simp only [skipAux, h, if_pos hm] at hr
        have h1 : b.rank + 1 ≤ b.eliminatePreferred.rank := by
          rw [eliminatePreferred_of_some b c h]
        have h2 := skipAux_rank_le ex n b.eliminatePreferred
        omega
      · simp only [skipAux, h, if_neg hm]

/-- The fuel of skipAux is irrelevant once sufficient. -/
theorem skipAux_congr (ex : List Cand) :
    ∀ (f1 f2 : Nat) (b : Ballot), b.candidates.length ≤ b.rank + f1 →
      b.candidates.length ≤ b.rank + f2 → skipAux ex b f1 = skipAux ex b f2 := by
  intro f1
  induction f1 with
  | zero =>
    intro f2 b h1 _
    cases f2 with
    | zero => rfl
    | succ m =>
      simp only [skipAux, preferredActive_none_of_le b (by omega)]
  | succ n ih =>
    intro f2 b h1 h2
    cases f2 with
    | zero =>
      simp only [skipAux, preferredActive_none_of_le b (by omega)]
    | succ m =>
      cases h : b.preferredActive with
      | none => simp only [skipAux, h]
      | some c =>
        by_cases hm : c ∈ ex
        · simp only [skipAux, h, if_pos hm]
          have hlt := rank_lt_of_preferredActive b c h
          have hc := eliminatePreferred_candidates b
          have hr2 : b.eliminatePreferred.rank = b.rank + 1 := by
            rw [eliminatePreferred_of_some b c h]
          apply ih
          · rw [hc, hr2]
            omega
          · rw [hc, hr2]
            omega
        · simp only [skipAux, h, if_neg hm]

theorem skipExcluded_candidates (ex : List Cand) (b : Ballot) :
    (Ballot.skipExcluded ex b).candidates = b.candidates :=
  skipAux_candidates ex b.candidates.length b

theorem skipExcluded_rank_le (ex : List Cand) (b : Ballot) :
    b.rank ≤ (Ballot.skipExcluded ex b).rank :=
  skipAux_rank_le ex b.candidates.length b

/-- The cursor-resolution loop stops at an exhausted ballot or at a
candidate outside the excluded set. -/
theorem skipExcluded_stop (ex : List Cand) (b : Ballot) :
    (Ballot.skipExcluded ex b).preferredActive = none ∨
      ∃ c, (Ballot.skipExcluded ex b).preferredActive = some c ∧ c ∉ ex :=
  skipAux_stop ex b.candidates.length b (by omega)

/-- If the cursor did not move, the cursor-resolution loop was the
identity. -/
theorem skipExcluded_of_rank_eq (ex : List Cand) (b : Ballot)
    (hr : (Ballot.skipExcluded ex b).rank = b.rank) :
    Ballot.skipExcluded ex b = b :=
  skipAux_of_rank_eq ex b.candidates.length b hr

/-- Fidelity of the fuelled definition: Ballot.skipExcluded satisfies the
recursion of the source's while loop. -/
theorem skipExcluded_eq (ex : List Cand) (b : Ballot) :
    Ballot.skipExcluded ex b =
      match b.preferredActive with
      | none => b
      | some c => if c ∈ ex then Ballot.skipExcluded ex b.eliminatePreferred else b := by
  cases h : b.preferredActive with
  | none =>
    unfold Ballot.skipExcluded
    cases hl : b.candidates.length with
    | zero => rfl
    | succ k => simp only [skipAux, h]
  | some c =>
    have hlt := rank_lt_of_preferredActive b c h
    unfold Ballot.skipExcluded
    cases hl : b.candidates.length with
    | zero => exact absurd hlt (by omega)
    | succ k =>
      simp only [skipAux, h]
      by_cases hm : c ∈ ex
      · simp only [if_pos hm]
        have hc := eliminatePreferred_candidates b
        have hr2 : b.eliminatePreferred.rank = b.rank + 1 := by
          rw [eliminatePreferred_of_some b c h]
        apply skipAux_congr
        · rw [hc, hr2]
          omega
        · rw [hc, hr2]
          omega
      · simp only [if_neg hm]

/-- isinstance(x, NoConfidence) applied to an optional candidate
(isinstance(None, NoConfidence) is False). -/
def isNCopt : Option Cand → Bool
  | none => false
  | some c => isNC c

/-- Lines 722-735: one ballot's advancement inside the forward tie-break
simulation — advance the cursor one step (unless No-Confidence is both
preferred and protected), then resolve past excluded candidates. -/
def simBallot (canElimNC : Bool) (ex : List Cand) (b : Ballot) : Ballot :=
  let b1 := if canElimNC || !(isNCopt b.preferredActive) then b.eliminatePreferred else b
  Ballot.skipExcluded ex b1

/-- Lines 743-754: a simulated ballot survives the iteration when it still
has a preferred candidate that is not a protected No-Confidence. -/
def simKeep (canElimNC : Bool) (b : Ballot) : Bool :=
  match b.preferredActive with
  | none => false
  | some c => canElimNC || !(isNC c)

/-- The forward_vote_tracker built in one simulation iteration. -/
def simTracker (canElimNC : Bool) (ex : List Cand) (ballots : List Ballot) : VoteTracker :=
  ballots.foldl (fun tr b =>
    let b1 := simBallot canElimNC ex b
    let tr1 := castListed ex tr b1.candidates
    match b1.preferredActive with
    | none => tr1
    | some c => if !canElimNC && isNC c then tr1 else tr1.cast c b1.vote_value) emptyTracker

/-- ballots_active_tiebreak after one simulation iteration (exhausted and
protected No-Confidence ballots removed). -/
def simSurvivors (canElimNC : Bool) (ex : List Cand) (ballots : List Ballot) : List Ballot :=
  (ballots.map (simBallot canElimNC ex)).filter (simKeep canElimNC)

/-- Termination measure contribution of a single simulated ballot. -/
def ballotFuel (b : Ballot) : Nat := b.candidates.length - b.rank + 1

theorem ballotFuel_pos (b : Ballot) : 0 < ballotFuel b := by
  unfold ballotFuel
  omega

/-- A ballot surviving a simulation iteration strictly advanced its
cursor, so its measure strictly drops. -/
theorem simBallot_fuel_lt (canElimNC : Bool) (ex : List Cand) (b : Ballot)
    (hk : simKeep canElimNC (simBallot canElimNC ex b) = true) :
    ballotFuel (simBallot canElimNC ex b) < ballotFuel b := by
  unfold simBallot at hk ⊢
  set b1 := (if canElimNC || !(isNCopt b.preferredActive) then b.eliminatePreferred else b) with hb1
  set s := Ballot.skipExcluded ex b1 with hs
  cases hpref : s.preferredActive with
  | none => simp [simKeep, hpref] at hk
  | some c =>
    have hclt : s.rank < s.candidates.length := by
      have h' : s.candidates.get? s.rank = some c := hpref
      obtain ⟨hlt, -⟩ := List.get?_eq_some.mp h'
      exact hlt
    have hcands1 : s.candidates = b1.candidates := skipExcluded_candidates ex b1
    have hcandsb : b1.candidates = b.candidates := by
      rw [hb1]
      split
      · exact eliminatePreferred_candidates b
      · rfl
    have hr1 : b1.rank ≤ s.rank := skipExcluded_rank_le ex b1
    have hrb : b.rank ≤ b1.rank := by
      rw [hb1]
      split
      · exact eliminatePreferred_rank_le b
      · exact le_refl _
    have hranklt : b.rank < s.rank := by
      rcases Nat.lt_or_ge b.rank s.rank with hgood | hbad
      · exact hgood
      exfalso
      have hseq : s.rank = b1.rank := le_antisymm (by omega) hr1
      have hsb1 : s = b1 := skipExcluded_of_rank_eq ex b1 hseq
      by_cases hcond : (canElimNC || !(isNCopt b.preferredActive)) = true
      · have hb1e : b1 = b.eliminatePreferred := by rw [hb1, if_pos hcond]
        have hbnone : b.preferredActive = none := by
          cases hbp : b.preferredActive with
          | none => rfl
          | some d =>
            exfalso
            have : b1.rank = b.rank + 1 := by
              rw [hb1e]
              unfold Ballot.eliminatePreferred
              rw [hbp]
            omega
        have hb1b : b1 = b := by
          rw [hb1e]
          unfold Ballot.eliminatePreferred
          rw [hbnone]
        rw [hsb1, hb1b, hbnone] at hpref
        exact Option.noConfusion hpref
      · have hb1b : b1 = b := by
          rw [hb1]
          exact if_neg hcond
        have hcondf : (canElimNC || !(isNCopt b.preferredActive)) = false := by
          revert hcond
          cases canElimNC || !(isNCopt b.preferredActive) <;> simp
        obtain ⟨hce, hnotf⟩ := Bool.or_eq_false_iff.mp hcondf
        have hncT : isNCopt b.preferredActive = true := by
          revert hnotf
          cases isNCopt b.preferredActive <;> simp
        have hprefb : b.preferredActive = some c := by
          rw [← hb1b, ← hsb1]
          exact hpref
        have hncc : isNC c = true := by
          rw [hprefb] at hncT
          simpa [isNCopt] using hncT
        simp only [simKeep, hpref] at hk
        rw [hce, hncc] at hk
        simp at hk
    have hlen : s.candidates.length = b.candidates.length := by
      rw [hcands1, hcandsb]
    unfold ballotFuel
    omega

/-- Summed measure of the survivors of one simulation iteration, strictly
below the summed measure of the ballots entering it. -/
theorem simSurvivors_fuel_lt (canElimNC : Bool) (ex : List Cand) :
    ∀ l : List Ballot, l ≠ [] →
      ((simSurvivors canElimNC ex l).map ballotFuel).sum < (l.map ballotFuel).sum := by
  intro l
  induction l with
  | nil => intro h; exact absurd rfl h
  | cons b t ih =>
    intro _
    unfold simSurvivors at ih ⊢
    simp only [List.map_cons, List.filter_cons, List.sum_cons]
    rcases eq_or_ne t [] with rfl | ht
    · cases hp : simKeep canElimNC (simBallot canElimNC ex b) with
      | false =>
        simp only [hp, Bool.false_eq_true, if_false, List.map_nil,
          List.filter_nil, List.sum_nil]
        have := ballotFuel_pos b
        omega
      | true =>
        simp only [hp, if_true, List.map_nil, List.filter_nil,
          List.map_cons, List.sum_cons, List.sum_nil]
        have := simBallot_fuel_lt canElimNC ex b hp
        omega
    · have IH := ih ht
      cases hp : simKeep canElimNC (simBallot canElimNC ex b) with
      | false =>
        simp only [hp, Bool.false_eq_true, if_false]
        have := ballotFuel_pos b
        omega
      | true =>
        simp only [hp, if_true, List.map_cons, List.sum_cons]
        have := simBallot_fuel_lt canElimNC ex b hp
        omega

/-- Fuel-indexed forward projected tie-break loop; structural so that
concrete elections evaluate inside the kernel. -/
def forwardAux (canElimNC : Bool) (ex : List Cand) : Nat → List Cand → List Ballot → List Cand
  | 0, tied, _ => tied
  | n + 1, tied, ballots =>
    if 1 < tied.length ∧ 1 < ballots.length then
      forwardAux canElimNC ex n
        ((simTracker canElimNC ex ballots).candidatesWithFewestVotes tied)
        (simSurvivors canElimNC ex ballots)
    else tied

/-- The forward projected tie-break loop (lines 715-762): repeatedly
advance every simulated ballot, retally, and narrow the tied set, while
more than one candidate remains tied and more than one simulated ballot
remains active. The simulation only returns the narrowed candidate set;
the fuel is the summed ballot measure, shown sufficient below. -/
def forwardLoop (canElimNC : Bool) (ex : List Cand) (tied : List Cand) (ballots : List Ballot) : List Cand :=
  forwardAux canElimNC ex (ballots.map ballotFuel).sum tied ballots

theorem ballots_nil_of_fuel_sum_zero {l : List Ballot}
    (h : (l.map ballotFuel).sum = 0) : l = [] := by
  cases l with
  | nil => rfl
  | cons b t =>
    exfalso
    have hp := ballotFuel_pos b
    simp only [List.map_cons, List.sum_cons] at h
    omega

/-- The fuel of forwardAux is irrelevant once it reaches the summed ballot
measure. -/
theorem forwardAux_congr (canElimNC : Bool) (ex : List Cand) :
    ∀ (f1 f2 : Nat) (tied : List Cand) (ballots : List Ballot),
      (ballots.map ballotFuel).sum ≤ f1 → (ballots.map ballotFuel).sum ≤ f2 →
      forwardAux canElimNC ex f1 tied ballots = forwardAux canElimNC ex f2 tied ballots := by
  intro f1
  induction f1 with
  | zero =>
    intro f2 tied ballots h1 _
    have hnil : ballots = [] := ballots_nil_of_fuel_sum_zero (by omega)
    cases f2 with
    | zero => rfl
    | succ m =>
      rw [hnil]
      simp [forwardAux]
  | succ n ih =>
    intro f2 tied ballots h1 h2
    cases f2 with
    | zero =>
      have hnil : ballots = [] := ballots_nil_of_fuel_sum_zero (by omega)
      rw [hnil]
      simp [forwardAux]
    | succ m =>
      simp only [forwardAux]
      by_cases hc : 1 < tied.length ∧ 1 < ballots.length
      · simp only [if_pos hc]
        have hlt := simSurvivors_fuel_lt canElimNC ex ballots (by
          intro hnil
          rw [hnil] at hc
          simp at hc)
        exact ih m _ _ (by omega) (by omega)
      · simp only [if_neg hc]

/-- Fidelity of the fuelled definition: forwardLoop satisfies the
recursion of the source's while loop. -/
theorem forwardLoop_eq (canElimNC : Bool) (ex : List Cand) (tied : List Cand)
    (ballots : List Ballot) :
    forwardLoop canElimNC ex tied ballots =
      if 1 < tied.length ∧ 1 < ballots.length then
        forwardLoop canElimNC ex
          ((simTracker canElimNC ex ballots).candidatesWithFewestVotes tied)
          (simSurvivors canElimNC ex ballots)
      else tied := by
  unfold forwardLoop
  by_cases hc : 1 < tied.length ∧ 1 < ballots.length
  · have hnnil : ballots ≠ [] := by
      intro hnil
      rw [hnil] at hc
      simp at hc
    have hlt := simSurvivors_fuel_lt canElimNC ex ballots hnnil
    cases hsum : (ballots.map ballotFuel).sum with
    | zero => exact absurd (ballots_nil_of_fuel_sum_zero hsum) hnnil
    | succ k =>
      simp only [forwardAux, if_pos hc]
      apply forwardAux_congr
      · omega
      · exact le_refl _
  · cases hsum : (ballots.map ballotFuel).sum with
    | zero => simp only [forwardAux, if_neg hc]
    | succ k => simp only [forwardAux, if_neg hc]

/-- Surplus transfer for one ballot (lines 653-660): ballots assigned to a
winner are multiplied by surplus / votes; others are untouched. -/
def scaleBallot (t : VoteTracker) (thr : ℚ) (winners : List Cand) (b : Ballot) : Ballot :=
  match b.preferredActive with
  | none => b
  | some c =>
    if c ∈ winners then
      { b with vote_value := b.vote_value * ((t.votesFor c - thr) / t.votesFor c) }
    else b

/-- Python str.index for a character of a uid in the tie-break
alphanumeric; our List.indexOf returns the list length when the character
is absent, where Python would raise instead. -/
def charIndex (alpha : List Char) (ch : Char) : Nat := alpha.indexOf ch

/-- The random-sort key of a candidate (line 776): the list of positions
of the uid's characters in the tie-break alphanumeric. -/
def sortKey (alpha : String) (uid : Cand) : List Nat :=
  uid.data.map (charIndex alpha.data)

/-- Lexicographic comparison of sort keys: Python list comparison. -/
def keyLE : List Nat → List Nat → Bool
  | [], _ => true
  | _ :: _, [] => false
  | x :: xs, y :: ys => if x < y then true else if y < x then false else keyLE xs ys

/-- Stable insertion for sorting candidates by their random-sort key. -/
def insertByKey (alpha : String) (c : Cand) : List Cand → List Cand
  | [] => [c]
  | d :: rest =>
    if keyLE (sortKey alpha c) (sortKey alpha d) then c :: d :: rest
    else d :: insertByKey alpha c rest

/-- sorted(candidates, key=...) of line 776. -/
def sortByKey (alpha : String) (l : List Cand) : List Cand :=
  l.foldr (insertByKey alpha) []

/-- Lines 774-782: sort the tied set by the random key and pick the first
candidate that is not No-Confidence; if every tied candidate is
No-Confidence the tied set is left unchanged. -/
def randomPick (alpha : String) (tied : List Cand) : List Cand :=
  match (sortByKey alpha tied).find? (fun c => !(isNC c)) with
  | some c => [c]
  | none => tied

/-- Line 680-682: candidates eligible for elimination — all tallied
candidates, excluding No-Confidence unless configuration allows it. -/
def eligibleFor (canElimNC : Bool) (t : VoteTracker) : List Cand :=
  t.keys.filter (fun c => canElimNC || !(isNC c))

/-- Line 692: the combined vote value of the tied set, computed as its
size times the vote value of one of its members. -/
def tiedCombinedOf (t : VoteTracker) (tied : List Cand) : ℚ :=
  (tied.length : ℚ) * t.votesFor tied.headI

/-- Line 693: the group of eligible non-tied candidates with fewest
votes. -/
def nextHighestGroupOf (t : VoteTracker) (eligible tied : List Cand) : List Cand :=
  t.candidatesWithFewestVotes (eligible.filter (fun c => !(tied.contains c)))

/-- Lines 694-697: the vote value of the next-highest group, 0 when that
group is empty. -/
def nextHighestValueOf (t : VoteTracker) (eligible tied : List Cand) : ℚ :=
  if 0 < (nextHighestGroupOf t eligible tied).length then
    t.votesFor (nextHighestGroupOf t eligible tied).headI
  else 0

/-- Lines 690-699: a tie-break is required unless the combined vote value
of the tied set is strictly below the value of the next-highest non-tied
eligible group (that value being 0 when no such group exists). -/
def combinedTiebreakRequired (t : VoteTracker) (eligible tied : List Cand) : Bool :=
  if 1 < tied.length then
    decide (nextHighestValueOf t eligible tied ≤ tiedCombinedOf t tied)
  else false

/-- Lines 704-710: the backward tie-break walk over recorded trackers,
narrowing the tied set to the candidates with fewest votes in each tracker
while more than one candidate remains. In compute_results the walk starts
at index current_round - 1, which is the tracker of the *current* round,
followed by the previous rounds from most recent to oldest. -/
def backwardNarrow (hist : List VoteTracker) (tied : List Cand) : List Cand :=
  match hist with
  | [] => tied
  | t :: rest =>
    if 1 < tied.length then backwardNarrow rest (t.candidatesWithFewestVotes tied) else tied

/-- Line 684: the tied set seeding the elimination tie-break cascade. -/
def elimTied0 (canElimNC : Bool) (t : VoteTracker) : List Cand :=
  t.candidatesWithFewestVotes (eligibleFor canElimNC t)

/-- tiebreak_required after the combined-vs-next-highest check. -/
def elimReq0 (canElimNC : Bool) (t : VoteTracker) : Bool :=
  combinedTiebreakRequired t (eligibleFor canElimNC t) (elimTied0 canElimNC t)

/-- The tied set after the backward walk (lines 704-708). -/
def elimTied1 (canElimNC : Bool) (hist : List VoteTracker) (t : VoteTracker) : List Cand :=
  if elimReq0 canElimNC t then backwardNarrow hist (elimTied0 canElimNC t)
  else elimTied0 canElimNC t

/-- tiebreak_required after the backward walk (line 710). -/
def elimReq1 (canElimNC : Bool) (hist : List VoteTracker) (t : VoteTracker) : Bool :=
  elimReq0 canElimNC t && decide (1 < (elimTied1 canElimNC hist t).length)

/-- The tied set after the forward projected simulation (lines 715-756). -/
def elimTied2 (canElimNC : Bool) (ex : List Cand) (hist : List VoteTracker)
    (t : VoteTracker) (kept : List Ballot) : List Cand :=
  if elimReq1 canElimNC hist t then
    forwardLoop canElimNC ex (elimTied1 canElimNC hist t) kept
  else elimTied1 canElimNC hist t

/-- tiebreak_required after the forward simulation (line 762). -/
def elimReq2 (canElimNC : Bool) (ex : List Cand) (hist : List VoteTracker)
    (t : VoteTracker) (kept : List Ballot) : Bool :=
  elimReq1 canElimNC hist t &&
    decide (1 < (elimTied2 canElimNC ex hist t kept).length)

/-- Lines 676-787: the complete elimination decision of a round. Returns
none when the election halts because a random tie-break is needed but
disallowed, otherwise the candidates to eliminate and whether a random
tie-break occurred. -/
def eliminationChoice (cfg : Config) (ex : List Cand) (hist : List VoteTracker)
    (t : VoteTracker) (kept : List Ballot) : Option (List Cand × Bool) :=
  if elimReq2 cfg.canElimNC ex hist t kept then
    if cfg.canRandom then
      some (randomPick cfg.alpha (elimTied2 cfg.canElimNC ex hist t kept), true)
    else none
  else some (elimTied2 cfg.canElimNC ex hist t kept, false)

/-- The outcome of one round: halt ends the while loop of
compute_results, next proceeds to the following round. -/
inductive Outcome where
  | halt (st : EngineState)
  | next (st : EngineState)
deriving DecidableEq, Repr

def outState : Outcome → EngineState
  | .halt st => st
  | .next st => st

/-- One iteration of the while loop of Election.compute_results
(lines 558-787). -/
def runRound (cfg : Config) (st : EngineState) : Outcome :=
  let ex := st.elected ++ st.eliminated
  let t := tallyPhase ex st.active
  let active1 := t.kept
  let exhausted1 := st.exhausted ++ t.exh
  if t.tracker.keys.length = 0 then
    .halt
      { st with
        active := active1,
        exhausted := exhausted1,
        rounds := st.rounds ++ [⟨0, [], [], false, t.tracker⟩] }
  else
    let vacant := cfg.seats - st.elected.length
    if t.tracker.keys.length ≤ vacant then
      let ncVote := t.tracker.votesFor ncUid
      let toElect := t.tracker.candidatesReachingThreshold t.tracker.keys ncVote
      .halt
        { st with
          active := active1,
          exhausted := exhausted1,
          elected := st.elected ++ toElect,
          rounds := st.rounds ++ [⟨0, toElect, [], false, t.tracker⟩] }
    else
      let thr := droopQuota vacant t.tracker.votes_cast
      let winners := t.tracker.candidatesReachingThreshold t.tracker.keys thr
      if 0 < winners.length then
        let active2 := active1.map (scaleBallot t.tracker thr winners)
        let st1 :=
          { st with
            active := active2,
            exhausted := exhausted1,
            elected := st.elected ++ winners,
            rounds := st.rounds ++ [⟨thr, winners, [], false, t.tracker⟩] }
        if ncUid ∈ winners then .halt st1 else .next st1
      else
        let hist := t.tracker :: (st.rounds.map ERound.tracker).reverse
        match eliminationChoice cfg ex hist t.tracker active1 with
        | none =>
          .halt
            { st with
              active := active1,
              exhausted := exhausted1,
              rounds := st.rounds ++ [⟨thr, [], [], false, t.tracker⟩] }
        | some (toElim, flag) =>
          .next
            { st with
              active := active1,
              exhausted := exhausted1,
              eliminated := st.eliminated ++ toElim,
              rounds := st.rounds ++ [⟨thr, [], toElim, flag, t.tracker⟩] }

/-- The while loop of compute_results, with explicit fuel; none signals
fuel exhaustion (shown below never to happen for sufficient fuel). -/
def computeLoop (cfg : Config) (fuel : Nat) (st : EngineState) : Option EngineState :=
  match fuel with
  | 0 => none
  | fuel + 1 =>
    if st.elected.length < cfg.seats then
      match runRound cfg st with
      | .halt st1 => some st1
      | .next st1 => computeLoop cfg fuel st1
    else some st

/-- ElectionResults. -/
structure ElectionResults where
  ballots : List Ballot
  elected : List Cand
  rounds : List ERound
  alpha : String
  seats : Nat
deriving DecidableEq, Repr

def initState (ballots : List Ballot) : EngineState :=
  { active := ballots, exhausted := [], elected := [], eliminated := [], rounds := [] }

/-- All candidate uids occurring on the ballots. -/
def universeOf (ballots : List Ballot) : List Cand :=
  ((ballots.map Ballot.candidates).flatten).dedup

/-- Election.compute_results, run with fuel that the termination theorem
shows sufficient. -/
def computeResults (cfg : Config) (ballots : List Ballot) : ElectionResults :=
  match computeLoop cfg ((universeOf ballots).length + 1) (initState ballots) with
  | some st => ⟨ballots, st.elected, st.rounds, cfg.alpha, cfg.seats⟩
  | none => ⟨ballots, [], [], cfg.alpha, cfg.seats⟩

def mkBallot (cs : List Cand) : Ballot := { candidates := cs, vote_value := 1, rank := 0 }

example :
    (computeResults ⟨1, true, true, "abcdefghijklmnopqrstuvwxyz"⟩
      (List.replicate 10 (mkBallot ["A"]))).elected = ["A"] := by
  with_unfolding_all decide

/-! Association-list lemmas for the vote tracker. -/

/-- The sum of the per-candidate vote values of a tracker list. -/
def valSum (l : List (Cand × ℚ)) : ℚ := (l.map Prod.snd).sum

theorem getVal_updateVal_self (l : List (Cand × ℚ)) (c : Cand) (v : ℚ) :
    getVal (updateVal l c v) c = getVal l c + v := by
  induction l with
  | nil => simp [updateVal, getVal]
  | cons p rest ih =>
    by_cases h : p.1 = c
    · simp [updateVal, getVal, h]
    · simp [updateVal, getVal, h, ih]

theorem getVal_updateVal_ne (l : List (Cand × ℚ)) (c d : Cand) (v : ℚ)
    (hne : d ≠ c) : getVal (updateVal l c v) d = getVal l d := by
  have hcd : ¬ (c = d) := fun hh => hne hh.symm
  induction l with
  | nil => simp [updateVal, getVal, hcd]
  | cons p rest ih =>
    by_cases h : p.1 = c
    · have hpd : ¬ (p.1 = d) := by rw [h]; exact hcd
      simp only [updateVal, if_pos h, getVal, if_neg hpd]
    · by_cases hpd : p.1 = d
      · simp only [updateVal, if_neg h, getVal, if_pos hpd]
      · simp only [updateVal, if_neg h, getVal, if_neg hpd]
        exact ih

theorem valSum_updateVal (l : List (Cand × ℚ)) (c : Cand) (v : ℚ) :
    valSum (updateVal l c v) = valSum l + v := by
  induction l with
  | nil => simp [updateVal, valSum]
  | cons p rest ih =>
    by_cases h : p.1 = c
    · simp [updateVal, valSum, h]
      ring
    · simp only [updateVal, if_neg h, valSum, List.map_cons, List.sum_cons] at ih ⊢
      rw [ih]
      ring

theorem mem_keys_updateVal (l : List (Cand × ℚ)) (c d : Cand) (v : ℚ) :
    d ∈ (updateVal l c v).map Prod.fst ↔ d ∈ l.map Prod.fst ∨ d = c := by
  induction l with
  | nil => simp [updateVal]
  | cons p rest ih =>
    by_cases h : p.1 = c
    · simp only [updateVal, if_pos h, List.map_cons, List.mem_cons, ih]
      constructor
      · intro hh
        rcases hh with hh | hh
        · exact Or.inl (Or.inl hh)
        · exact Or.inl (Or.inr hh)
      · intro hh
        rcases hh with (hh | hh) | hh
        · exact Or.inl hh
        · exact Or.inr hh
        · rw [hh, ← h]
          exact Or.inl rfl
    · simp only [updateVal, if_neg h, List.map_cons, List.mem_cons, ih]
      tauto

theorem nodup_keys_updateVal (l : List (Cand × ℚ)) (c : Cand) (v : ℚ)
    (hnd : (l.map Prod.fst).Nodup) : ((updateVal l c v).map Prod.fst).Nodup := by
  induction l with
  | nil => simp [updateVal]
  | cons p rest ih =>
    by_cases h : p.1 = c
    · simpa only [updateVal, if_pos h, List.map_cons] using hnd
    · simp only [List.map_cons, List.nodup_cons] at hnd
      simp only [updateVal, if_neg h, List.map_cons, List.nodup_cons]
      refine ⟨?_, ih hnd.2⟩
      intro hmem
      rcases (mem_keys_updateVal rest c p.1 v).mp hmem with hh | hh
      · exact hnd.1 hh
      · exact h hh

theorem getVal_eq_zero_of_not_mem (l : List (Cand × ℚ)) (c : Cand)
    (h : c ∉ l.map Prod.fst) : getVal l c = 0 := by
  induction l with
  | nil => rfl
  | cons p rest ih =>
    simp only [List.map_cons, List.mem_cons, not_or] at h
    have hp : ¬ (p.1 = c) := fun hh => h.1 hh.symm
    simp only [getVal, if_neg hp]
    exact ih h.2

theorem getVal_nonneg (l : List (Cand × ℚ)) (c : Cand)
    (h : ∀ q ∈ l, 0 ≤ q.2) : 0 ≤ getVal l c := by
  induction l with
  | nil => exact le_refl 0
  | cons p rest ih =>
    by_cases hp : p.1 = c
    · simpa [getVal, hp] using h p (by simp)
    · simp only [getVal, if_neg hp]
      exact ih (fun q hq => h q (by simp [hq]))

/-! VoteTracker.cast lemmas (the engine only casts nonnegative values). -/

theorem cast_votes_cast (t : VoteTracker) (c : Cand) (v : ℚ) (hv : 0 ≤ v) :
    (t.cast c v).votes_cast = t.votes_cast + v := by
  unfold VoteTracker.cast
  rw [if_neg (not_lt.mpr hv)]

theorem cast_votes_for (t : VoteTracker) (c : Cand) (v : ℚ) (hv : 0 ≤ v) :
    (t.cast c v).votes_for = updateVal t.votes_for c v := by
  unfold VoteTracker.cast
  rw [if_neg (not_lt.mpr hv)]

theorem cast_keys_mem (t : VoteTracker) (c d : Cand) (v : ℚ) (hv : 0 ≤ v) :
    d ∈ (t.cast c v).keys ↔ d ∈ t.keys ∨ d = c := by
  unfold VoteTracker.keys
  rw [cast_votes_for t c v hv]
  exact mem_keys_updateVal t.votes_for c d v

/-! castListed (zero-vote registration) lemmas. -/

theorem castListed_votes_cast (ex : List Cand) :
    ∀ (cs : List Cand) (tr : VoteTracker),
      (castListed ex tr cs).votes_cast = tr.votes_cast := by
  intro cs
  induction cs with
  | nil => intro tr; rfl
  | cons c rest ih =>
    intro tr
    unfold castListed at ih ⊢
    simp only [List.foldl_cons]
    rw [ih]
    by_cases h : c ∈ ex
    · rw [if_pos h]
    · rw [if_neg h, cast_votes_cast _ _ _ (le_refl 0), add_zero]

theorem castListed_valSum (ex : List Cand) :
    ∀ (cs : List Cand) (tr : VoteTracker),
      valSum (castListed ex tr cs).votes_for = valSum tr.votes_for := by
  intro cs
  induction cs with
  | nil => intro tr; rfl
  | cons c rest ih =>
    intro tr
    unfold castListed at ih ⊢
    simp only [List.foldl_cons]
    rw [ih]
    by_cases h : c ∈ ex
    · rw [if_pos h]
    · rw [if_neg h, cast_votes_for _ _ _ (le_refl 0), valSum_updateVal, add_zero]

theorem castListed_keys_mem (ex : List Cand) :
    ∀ (cs : List Cand) (tr : VoteTracker) (d : Cand),
      d ∈ (castListed ex tr cs).keys ↔ d ∈ tr.keys ∨ (d ∈ cs ∧ d ∉ ex) := by
  intro cs
  induction cs with
  | nil =>
    intro tr d
    simp [castListed]
  | cons c rest ih =>
    intro tr d
    unfold castListed at ih ⊢
    simp only [List.foldl_cons]
    rw [ih]
    by_cases h : c ∈ ex
    · rw [if_pos h]
      constructor
      · intro hh
        rcases hh with hh | hh
        · exact Or.inl hh
        · exact Or.inr ⟨List.mem_cons_of_mem _ hh.1, hh.2⟩
      · intro hh
        rcases hh with hh | ⟨hmem, hne⟩
        · exact Or.inl hh
        · rcases List.mem_cons.mp hmem with rfl | hmem2
          · exact absurd h hne
          · exact Or.inr ⟨hmem2, hne⟩
    · rw [if_neg h]
      rw [cast_keys_mem _ _ _ _ (le_refl 0)]
      constructor
      · intro hh
        rcases hh with (hh | rfl) | hh
        · exact Or.inl hh
        · exact Or.inr ⟨List.mem_cons_self _ _, h⟩
        · exact Or.inr ⟨List.mem_cons_of_mem _ hh.1, hh.2⟩
      · intro hh
        rcases hh with hh | ⟨hmem, hne⟩
        · exact Or.inl (Or.inl hh)
        · rcases List.mem_cons.mp hmem with rfl | hmem2
          · exact Or.inl (Or.inr rfl)
          · exact Or.inr ⟨hmem2, hne⟩

theorem castListed_keys_nodup (ex : List Cand) :
    ∀ (cs : List Cand) (tr : VoteTracker), tr.keys.Nodup →
      (castListed ex tr cs).keys.Nodup := by
  intro cs
  induction cs with
  | nil => intro tr h; exact h
  | cons c rest ih =>
    intro tr h
    unfold castListed at ih ⊢
    simp only [List.foldl_cons]
    by_cases hc : c ∈ ex
    · rw [if_pos hc]
      exact ih tr h
    · rw [if_neg hc]
      apply ih
      unfold VoteTracker.keys at h ⊢
      rw [cast_votes_for _ _ _ (le_refl 0)]
      exact nodup_keys_updateVal _ _ _ h

theorem castListed_getVal_nonneg (ex : List Cand) :
    ∀ (cs : List Cand) (tr : VoteTracker), (∀ d, 0 ≤ tr.votesFor d) →
      ∀ d, 0 ≤ (castListed ex tr cs).votesFor d := by
  intro cs
  induction cs with
  | nil => intro tr h; exact h
  | cons c rest ih =>
    intro tr h
    unfold castListed at ih ⊢
    simp only [List.foldl_cons]
    by_cases hc : c ∈ ex
    · rw [if_pos hc]
      exact ih tr h
    · rw [if_neg hc]
      apply ih
      intro d
      unfold VoteTracker.votesFor
      rw [cast_votes_for _ _ _ (le_refl 0)]
      by_cases hd : d = c
      · rw [hd, getVal_updateVal_self]
        have hx := h c
        unfold VoteTracker.votesFor at hx
        linarith
      · rw [getVal_updateVal_ne _ _ _ _ hd]
        exact h d

/-! Counting-pass invariants. -/

theorem tally_foldl_inv (ex : List Cand) (P : TallyOut → Prop)
    (hstep : ∀ acc b, P acc → P (processBallot ex acc b)) :
    ∀ (ballots : List Ballot) (acc : TallyOut),
      P acc → P (ballots.foldl (processBallot ex) acc) := by
  intro ballots
  induction ballots with
  | nil => intro acc h; exact h
  | cons b t ih =>
    intro acc h
    exact ih _ (hstep acc b h)

theorem processResolved_sums (ex : List Cand) (acc : TallyOut) (b1 : Ballot)
    (h1 : acc.tracker.votes_cast = valSum acc.tracker.votes_for)
    (h2 : acc.tracker.votes_cast = (acc.kept.map Ballot.vote_value).sum) :
    (processResolved ex acc b1).tracker.votes_cast =
        valSum (processResolved ex acc b1).tracker.votes_for ∧
      (processResolved ex acc b1).tracker.votes_cast =
        ((processResolved ex acc b1).kept.map Ballot.vote_value).sum := by
  have e1 := castListed_votes_cast ex b1.candidates acc.tracker
  have e2 := castListed_valSum ex b1.candidates acc.tracker
  cases hp : b1.preferredActive with
  | none =>
    simp only [processResolved, hp]
    constructor
    · rw [e1, e2]
      exact h1
    · rw [e1]
      exact h2
  | some c =>
    by_cases hv : b1.vote_value ≤ 0
    · simp only [processResolved, hp, if_pos hv]
      constructor
      · rw [e1, e2]
        exact h1
      · rw [e1]
        exact h2
    · have hv' : 0 ≤ b1.vote_value := le_of_lt (lt_of_not_le hv)
      simp only [processResolved, hp, if_neg hv]
      constructor
      · rw [cast_votes_cast _ _ _ hv', cast_votes_for _ _ _ hv', valSum_updateVal, e1, e2, h1]
      · rw [cast_votes_cast _ _ _ hv', e1, h2]
        simp [List.sum_append]

/-- Vote conservation inside one round's counting pass: the tracker's
running total equals the sum of its per-candidate values, and equals the
summed vote value of the ballots kept active. -/
theorem tallyPhase_sums (ex : List Cand) (ballots : List Ballot) :
    (tallyPhase ex ballots).tracker.votes_cast =
        valSum (tallyPhase ex ballots).tracker.votes_for ∧
      (tallyPhase ex ballots).tracker.votes_cast =
        ((tallyPhase ex ballots).kept.map Ballot.vote_value).sum := by
  unfold tallyPhase
  refine tally_foldl_inv ex
    (fun acc => acc.tracker.votes_cast = valSum acc.tracker.votes_for ∧
      acc.tracker.votes_cast = (acc.kept.map Ballot.vote_value).sum) ?_ ballots _ ?_
  · intro acc b h
    exact processResolved_sums ex acc _ h.1 h.2
  · constructor <;> rfl

theorem mem_candidates_of_preferredActive (b : Ballot) (c : Cand)
    (h : b.preferredActive = some c) : c ∈ b.candidates :=
  List.get?_mem (h : b.candidates.get? b.rank = some c)

theorem tally_foldl_inv_mem (ex : List Cand) (P : TallyOut → Prop) :
    ∀ (ballots : List Ballot),
      (∀ acc b, b ∈ ballots → P acc → P (processBallot ex acc b)) →
      ∀ (acc : TallyOut), P acc → P (ballots.foldl (processBallot ex) acc) := by
  intro ballots
  induction ballots with
  | nil => intro _ acc h; exact h
  | cons b t ih =>
    intro hstep acc h
    exact ih (fun acc' b' hb' => hstep acc' b' (List.mem_cons_of_mem _ hb'))
      _ (hstep acc b (List.mem_cons_self _ _) h)

theorem processResolved_keys_mem (ex : List Cand) (acc : TallyOut) (b1 : Ballot)
    (hpref : ∀ c, b1.preferredActive = some c → c ∉ ex) (d : Cand)
    (hd : d ∈ (processResolved ex acc b1).tracker.keys) :
    d ∈ acc.tracker.keys ∨ (d ∈ b1.candidates ∧ d ∉ ex) := by
  cases hp : b1.preferredActive with
  | none =>
    simp only [processResolved, hp] at hd
    exact (castListed_keys_mem ex _ _ _).mp hd
  | some c =>
    by_cases hv : b1.vote_value ≤ 0
    · simp only [processResolved, hp, if_pos hv] at hd
      exact (castListed_keys_mem ex _ _ _).mp hd
    · have hv' : 0 ≤ b1.vote_value := le_of_lt (lt_of_not_le hv)
      simp only [processResolved, hp, if_neg hv] at hd
      rcases (cast_keys_mem _ _ _ _ hv').mp hd with hd1 | rfl
      · exact (castListed_keys_mem ex _ _ _).mp hd1
      · exact Or.inr ⟨mem_candidates_of_preferredActive b1 d hp, hpref d hp⟩

theorem processResolved_keys_nodup (ex : List Cand) (acc : TallyOut) (b1 : Ballot)
    (h : acc.tracker.keys.Nodup) : (processResolved ex acc b1).tracker.keys.Nodup := by
  have hcl := castListed_keys_nodup ex b1.candidates acc.tracker h
  cases hp : b1.preferredActive with
  | none => simpa only [processResolved, hp] using hcl
  | some c =>
    by_cases hv : b1.vote_value ≤ 0
    · simpa only [processResolved, hp, if_pos hv] using hcl
    · have hv' : 0 ≤ b1.vote_value := le_of_lt (lt_of_not_le hv)
      simp only [processResolved, hp, if_neg hv]
      show ((castListed ex acc.tracker b1.candidates).cast c b1.vote_value).keys.Nodup
      unfold VoteTracker.keys
      rw [cast_votes_for _ _ _ hv']
      exact nodup_keys_updateVal _ _ _ hcl

theorem processResolved_nonneg (ex : List Cand) (acc : TallyOut) (b1 : Ballot)
    (h : ∀ d, 0 ≤ acc.tracker.votesFor d) (d : Cand) :
    0 ≤ (processResolved ex acc b1).tracker.votesFor d := by
  have hcl := castListed_getVal_nonneg ex b1.candidates acc.tracker h
  cases hp : b1.preferredActive with
  | none => simpa only [processResolved, hp] using hcl d
  | some c =>
    by_cases hv : b1.vote_value ≤ 0
    · simpa only [processResolved, hp, if_pos hv] using hcl d
    · have hv' : 0 ≤ b1.vote_value := le_of_lt (lt_of_not_le hv)
      simp only [processResolved, hp, if_neg hv]
      show 0 ≤ ((castListed ex acc.tracker b1.candidates).cast c b1.vote_value).votesFor d
      unfold VoteTracker.votesFor
      rw [cast_votes_for _ _ _ hv']
      by_cases hdc : d = c
      · rw [hdc, getVal_updateVal_self]
        have hx := hcl c
        unfold VoteTracker.votesFor at hx
        linarith
      · rw [getVal_updateVal_ne _ _ _ _ hdc]
        exact hcl d

/-- Candidates registered by the counting pass are never already elected
or eliminated. -/
theorem tallyPhase_keys_fresh (ex : List Cand) (ballots : List Ballot) :
    ∀ d ∈ (tallyPhase ex ballots).tracker.keys, d ∉ ex := by
  unfold tallyPhase
  refine tally_foldl_inv ex (fun acc => ∀ d ∈ acc.tracker.keys, d ∉ ex) ?_ ballots _ ?_
  · intro acc b h d hd
    unfold processBallot at hd
    have hpref : ∀ c, (Ballot.skipExcluded ex b).preferredActive = some c → c ∉ ex := by
      intro c hc
      rcases skipExcluded_stop ex b with hs | ⟨c', hc', hnc⟩
      · rw [hs] at hc
        exact Option.noConfusion hc
      · rw [hc'] at hc
        injection hc with hcc
        rw [← hcc]
        exact hnc
    rcases processResolved_keys_mem ex acc _ hpref d hd with hd1 | ⟨-, hd2⟩
    · exact h d hd1
    · exact hd2
  · intro d hd
    simp [emptyTracker, VoteTracker.keys] at hd

/-- The tracker built by the counting pass has pairwise distinct keys. -/
theorem tallyPhase_keys_nodup (ex : List Cand) (ballots : List Ballot) :
    (tallyPhase ex ballots).tracker.keys.Nodup := by
  unfold tallyPhase
  refine tally_foldl_inv ex (fun acc => acc.tracker.keys.Nodup) ?_ ballots _ ?_
  · intro acc b h
    exact processResolved_keys_nodup ex acc _ h
  · simp [emptyTracker, VoteTracker.keys]

/-- The tracker built by the counting pass has nonnegative values. -/
theorem tallyPhase_nonneg (ex : List Cand) (ballots : List Ballot) :
    ∀ d, 0 ≤ (tallyPhase ex ballots).tracker.votesFor d := by
  unfold tallyPhase
  refine tally_foldl_inv ex (fun acc => ∀ d, 0 ≤ acc.tracker.votesFor d) ?_ ballots _ ?_
  · intro acc b h
    exact processResolved_nonneg ex acc _ h
  · intro d
    unfold VoteTracker.votesFor emptyTracker getVal
    exact le_refl 0

/-- Every candidate registered by the counting pass occurs on some input
ballot. -/
theorem tallyPhase_keys_universe (ex : List Cand) (ballots : List Ballot) :
    ∀ d ∈ (tallyPhase ex ballots).tracker.keys,
      ∃ b ∈ ballots, d ∈ b.candidates := by
  unfold tallyPhase
  refine tally_foldl_inv_mem ex
    (fun acc => ∀ d ∈ acc.tracker.keys, ∃ b ∈ ballots, d ∈ b.candidates)
    ballots ?_ _ ?_
  · intro acc b hb h d hd
    unfold processBallot at hd
    rcases processResolved_keys_mem ex acc _ (fun c hc => by
      rcases skipExcluded_stop ex b with hs | ⟨c', hc', hnc⟩
      · rw [hs] at hc
        exact Option.noConfusion hc
      · rw [hc'] at hc
        injection hc with hcc
        rw [← hcc]
        exact hnc) d hd with hd1 | ⟨hd2, -⟩
    · exact h d hd1
    · rw [skipExcluded_candidates ex b] at hd2
      exact ⟨b, hb, hd2⟩
  · intro d hd
    simp [emptyTracker, VoteTracker.keys] at hd

/-- Every ballot kept by the counting pass carries the candidate list of
some input ballot. -/
theorem tallyPhase_kept_candidates (ex : List Cand) (ballots : List Ballot) :
    ∀ b' ∈ (tallyPhase ex ballots).kept,
      ∃ b ∈ ballots, b'.candidates = b.candidates := by
  unfold tallyPhase
  refine tally_foldl_inv_mem ex
    (fun acc => ∀ b' ∈ acc.kept, ∃ b ∈ ballots, b'.candidates = b.candidates)
    ballots ?_ _ ?_
  · intro acc b hb h b' hb'
    unfold processBallot at hb'
    cases hp : (Ballot.skipExcluded ex b).preferredActive with
    | none =>
      simp only [processResolved, hp] at hb'
      exact h b' hb'
    | some c =>
      by_cases hv : (Ballot.skipExcluded ex b).vote_value ≤ 0
      · simp only [processResolved, hp, if_pos hv] at hb'
        exact h b' hb'
      · simp only [processResolved, hp, if_neg hv] at hb'
        rcases List.mem_append.mp hb' with hb1 | hb1
        · exact h b' hb1
        · rcases List.mem_singleton.mp hb1 with rfl
          exact ⟨b, hb, skipExcluded_candidates ex b⟩
  · intro b' hb'
    simp at hb'

/-! candidates_with_fewest_votes lemmas. -/

theorem fewest_foldl_sublist (t : VoteTracker) :
    ∀ (cs : List Cand) (fewest : ℚ) (acc pre : List Cand), acc.Sublist pre →
      ((cs.foldl (fewestStep t) (fewest, acc)).2).Sublist (pre ++ cs) := by
  intro cs
  induction cs with
  | nil =>
    intro fewest acc pre h
    simpa using h
  | cons c rest ih =>
    intro fewest acc pre h
    simp only [List.foldl_cons]
    have hstep : (fewestStep t (fewest, acc) c).2.Sublist (pre ++ [c]) := by
      unfold fewestStep
      by_cases h1 : t.votesFor c ≤ fewest ∨ fewest = -1
      · by_cases h2 : t.votesFor c < fewest ∨ fewest = -1
        · simp only [if_pos h1, if_pos h2]
          exact (List.nil_sublist pre).append (List.Sublist.refl [c])
        · simp only [if_pos h1, if_neg h2]
          exact h.append (List.Sublist.refl [c])
      · simp only [if_neg h1]
        exact h.trans (List.sublist_append_left pre [c])
    have := ih (fewestStep t (fewest, acc) c).1
      (fewestStep t (fewest, acc) c).2 (pre ++ [c]) hstep
    simpa using this

theorem fewest_sublist (t : VoteTracker) (cs : List Cand) :
    (t.candidatesWithFewestVotes cs).Sublist cs := by
  unfold VoteTracker.candidatesWithFewestVotes
  simpa using fewest_foldl_sublist t cs (-1) [] [] (List.Sublist.refl [])

theorem fewest_subset (t : VoteTracker) (cs : List Cand) :
    ∀ c ∈ t.candidatesWithFewestVotes cs, c ∈ cs :=
  fun _ h => (fewest_sublist t cs).subset h

theorem fewest_nodup (t : VoteTracker) (cs : List Cand) (h : cs.Nodup) :
    (t.candidatesWithFewestVotes cs).Nodup :=
  (fewest_sublist t cs).nodup h

theorem fewest_foldl_ne_nil (t : VoteTracker) :
    ∀ (cs : List Cand) (fewest : ℚ) (acc : List Cand), acc ≠ [] →
      (cs.foldl (fewestStep t) (fewest, acc)).2 ≠ [] := by
  intro cs
  induction cs with
  | nil => intro fewest acc h; exact h
  | cons c rest ih =>
    intro fewest acc h
    simp only [List.foldl_cons]
    have hstep : (fewestStep t (fewest, acc) c).2 ≠ [] := by
      unfold fewestStep
      by_cases h1 : t.votesFor c ≤ fewest ∨ fewest = -1
      · by_cases h2 : t.votesFor c < fewest ∨ fewest = -1
        · simp only [if_pos h1, if_pos h2]
          exact List.cons_ne_nil c []
        · simp only [if_pos h1, if_neg h2]
          intro hh
          exact h (List.append_eq_nil.mp hh).1
      · simp only [if_neg h1]
        exact h
    have := ih (fewestStep t (fewest, acc) c).1 (fewestStep t (fewest, acc) c).2 hstep
    simpa using this

theorem fewest_ne_nil (t : VoteTracker) (cs : List Cand) (h : cs ≠ []) :
    t.candidatesWithFewestVotes cs ≠ [] := by
  unfold VoteTracker.candidatesWithFewestVotes
  cases cs with
  | nil => exact absurd rfl h
  | cons c rest =>
    simp only [List.foldl_cons]
    have hfirst : fewestStep t (-1, []) c = (t.votesFor c, [c]) := by
      unfold fewestStep
      rw [if_pos (Or.inr rfl), if_pos (Or.inr rfl)]
    rw [hfirst]
    exact fewest_foldl_ne_nil t rest (t.votesFor c) [c] (List.cons_ne_nil c [])

theorem fewest_foldl_all_eq (t : VoteTracker) :
    ∀ (cs : List Cand) (fewest : ℚ) (acc : List Cand),
      (∀ c ∈ acc, t.votesFor c = fewest) →
      ∀ c ∈ (cs.foldl (fewestStep t) (fewest, acc)).2,
        t.votesFor c = (cs.foldl (fewestStep t) (fewest, acc)).1 := by
  intro cs
  induction cs with
  | nil => intro fewest acc h; exact h
  | cons c rest ih =>
    intro fewest acc h
    simp only [List.foldl_cons]
    have hstep : ∀ d ∈ (fewestStep t (fewest, acc) c).2,
        t.votesFor d = (fewestStep t (fewest, acc) c).1 := by
      unfold fewestStep
      by_cases h1 : t.votesFor c ≤ fewest ∨ fewest = -1
      · by_cases h2 : t.votesFor c < fewest ∨ fewest = -1
        · simp only [if_pos h1, if_pos h2]
          intro d hd
          rcases List.mem_singleton.mp hd with rfl
          rfl
        · simp only [if_pos h1, if_neg h2]
          intro d hd
          rcases List.mem_append.mp hd with hd1 | hd1
          · exact h d hd1
          · rcases List.mem_singleton.mp hd1 with rfl
            push_neg at h2
            rcases h1 with h1 | h1
            · exact le_antisymm h1 h2.1
            · exact absurd h1 h2.2
      · simp only [if_neg h1]
        exact h
    have := ih (fewestStep t (fewest, acc) c).1 (fewestStep t (fewest, acc) c).2 hstep
    simpa using this

/-- Every candidate in the fewest-votes set has the same vote value. -/
theorem fewest_all_eq (t : VoteTracker) (cs : List Cand) :
    ∀ c ∈ t.candidatesWithFewestVotes cs, ∀ d ∈ t.candidatesWithFewestVotes cs,
      t.votesFor c = t.votesFor d := by
  intro c hc d hd
  unfold VoteTracker.candidatesWithFewestVotes at hc hd
  rw [fewest_foldl_all_eq t cs (-1) [] (by intro x hx; cases hx) c hc,
    fewest_foldl_all_eq t cs (-1) [] (by intro x hx; cases hx) d hd]

theorem fewest_foldl_of_all_eq (t : VoteTracker) (m : ℚ) (hm : 0 ≤ m) :
    ∀ (cs : List Cand) (acc : List Cand), (∀ c ∈ cs, t.votesFor c = m) →
      cs.foldl (fewestStep t) (m, acc) = (m, acc ++ cs) := by
  intro cs
  induction cs with
  | nil => intro acc _; simp
  | cons c rest ih =>
    intro acc h
    have hc : t.votesFor c = m := h c (List.mem_cons_self _ _)
    have hstep : fewestStep t (m, acc) c = (m, acc ++ [c]) := by
      unfold fewestStep
      have h1 : t.votesFor c ≤ m ∨ (m : ℚ) = -1 := Or.inl (le_of_eq hc)
      have h2 : ¬ (t.votesFor c < m ∨ (m : ℚ) = -1) := by
        push_neg
        constructor
        · rw [hc]
        · intro hh
          rw [hh] at hm
          linarith
      rw [if_pos h1, if_neg h2]
    simp only [List.foldl_cons, hstep]
    rw [ih (acc ++ [c]) (fun d hd => h d (List.mem_cons_of_mem _ hd))]
    simp

/-- candidates_with_fewest_votes is the identity on a set of candidates
sharing one nonnegative vote value. -/
theorem fewest_of_all_eq (t : VoteTracker) (cs : List Cand) (m : ℚ) (hm : 0 ≤ m)
    (h : ∀ c ∈ cs, t.votesFor c = m) :
    t.candidatesWithFewestVotes cs = cs := by
  unfold VoteTracker.candidatesWithFewestVotes
  cases cs with
  | nil => rfl
  | cons c rest =>
    have hc : t.votesFor c = m := h c (List.mem_cons_self _ _)
    have hfirst : fewestStep t (-1, []) c = (t.votesFor c, [c]) := by
      unfold fewestStep
      rw [if_pos (Or.inr rfl), if_pos (Or.inr rfl)]
    simp only [List.foldl_cons, hfirst, hc]
    rw [fewest_foldl_of_all_eq t m hm rest [c]
      (fun d hd => h d (List.mem_cons_of_mem _ hd))]
    simp

/-! Tie-break narrowing lemmas. -/

theorem backwardNarrow_subset :
    ∀ (hist : List VoteTracker) (tied : List Cand),
      ∀ c ∈ backwardNarrow hist tied, c ∈ tied := by
  intro hist
  induction hist with
  | nil => intro tied c hc; exact hc
  | cons t rest ih =>
    intro tied c hc
    unfold backwardNarrow at hc
    by_cases h : 1 < tied.length
    · rw [if_pos h] at hc
      exact fewest_subset t tied c (ih _ c hc)
    · rw [if_neg h] at hc
      exact hc

theorem backwardNarrow_ne_nil :
    ∀ (hist : List VoteTracker) (tied : List Cand), tied ≠ [] →
      backwardNarrow hist tied ≠ [] := by
  intro hist
  induction hist with
  | nil => intro tied h; exact h
  | cons t rest ih =>
    intro tied h
    unfold backwardNarrow
    by_cases h1 : 1 < tied.length
    · rw [if_pos h1]
      exact ih _ (fewest_ne_nil t tied h)
    · rw [if_neg h1]
      exact h

theorem backwardNarrow_nodup :
    ∀ (hist : List VoteTracker) (tied : List Cand), tied.Nodup →
      (backwardNarrow hist tied).Nodup := by
  intro hist
  induction hist with
  | nil => intro tied h; exact h
  | cons t rest ih =>
    intro tied h
    unfold backwardNarrow
    by_cases h1 : 1 < tied.length
    · rw [if_pos h1]
      exact ih _ (fewest_nodup t tied h)
    · rw [if_neg h1]
      exact h

theorem forwardAux_subset (canElimNC : Bool) (ex : List Cand) :
    ∀ (fuel : Nat) (tied : List Cand) (ballots : List Ballot),
      ∀ c ∈ forwardAux canElimNC ex fuel tied ballots, c ∈ tied := by
  intro fuel
  induction fuel with
  | zero => intro tied ballots c hc; exact hc
  | succ n ih =>
    intro tied ballots c hc
    unfold forwardAux at hc
    by_cases h : 1 < tied.length ∧ 1 < ballots.length
    · rw [if_pos h] at hc
      exact fewest_subset _ tied c (ih _ _ c hc)
    · rw [if_neg h] at hc
      exact hc

theorem forwardAux_ne_nil (canElimNC : Bool) (ex : List Cand) :
    ∀ (fuel : Nat) (tied : List Cand) (ballots : List Ballot), tied ≠ [] →
      forwardAux canElimNC ex fuel tied ballots ≠ [] := by
  intro fuel
  induction fuel with
  | zero => intro tied ballots h; exact h
  | succ n ih =>
    intro tied ballots h
    unfold forwardAux
    by_cases h1 : 1 < tied.length ∧ 1 < ballots.length
    · rw [if_pos h1]
      exact ih _ _ (fewest_ne_nil _ tied h)
    · rw [if_neg h1]
      exact h

theorem forwardAux_nodup (canElimNC : Bool) (ex : List Cand) :
    ∀ (fuel : Nat) (tied : List Cand) (ballots : List Ballot), tied.Nodup →
      (forwardAux canElimNC ex fuel tied ballots).Nodup := by
  intro fuel
  induction fuel with
  | zero => intro tied ballots h; exact h
  | succ n ih =>
    intro tied ballots h
    unfold forwardAux
    by_cases h1 : 1 < tied.length ∧ 1 < ballots.length
    · rw [if_pos h1]
      exact ih _ _ (fewest_nodup _ tied h)
    · rw [if_neg h1]
      exact h

/-! Random-sort lemmas. -/

theorem keyLE_refl : ∀ a : List Nat, keyLE a a = true := by
  intro a
  induction a with
  | nil => rfl
  | cons x xs ih =>
    unfold keyLE
    simp only [lt_irrefl, if_false]
    exact ih

theorem keyLE_total : ∀ a b : List Nat, keyLE a b = true ∨ keyLE b a = true := by
  intro a
  induction a with
  | nil => intro b; exact Or.inl rfl
  | cons x xs ih =>
    intro b
    cases b with
    | nil => exact Or.inr rfl
    | cons y ys =>
      unfold keyLE
      rcases Nat.lt_trichotomy x y with h | h | h
      · rw [if_pos h]
        exact Or.inl rfl
      · rw [h]
        simp only [lt_irrefl, if_false]
        exact ih ys
      · simp only [if_neg (by omega : ¬ x < y), if_pos h]
        exact Or.inr trivial

theorem insertByKey_mem (alpha : String) (c x : Cand) :
    ∀ l : List Cand, x ∈ insertByKey alpha c l ↔ x = c ∨ x ∈ l := by
  intro l
  induction l with
  | nil => simp [insertByKey]
  | cons d rest ih =>
    unfold insertByKey
    by_cases h : keyLE (sortKey alpha c) (sortKey alpha d) = true
    · rw [if_pos h]
      simp [List.mem_cons]
    · rw [if_neg h]
      simp only [List.mem_cons, ih]
      tauto

theorem sortByKey_mem (alpha : String) (x : Cand) :
    ∀ l : List Cand, x ∈ sortByKey alpha l ↔ x ∈ l := by
  intro l
  induction l with
  | nil => simp [sortByKey]
  | cons d rest ih =>
    unfold sortByKey at ih ⊢
    simp only [List.foldr_cons, insertByKey_mem, ih, List.mem_cons]

theorem keyLE_trans : ∀ a b c : List Nat,
    keyLE a b = true → keyLE b c = true → keyLE a c = true := by
  intro a
  induction a with
  | nil => intro b c _ _; rfl
  | cons x xs ih =>
    intro b c hab hbc
    cases b with
    | nil => simp [keyLE] at hab
    | cons y ys =>
      cases c with
      | nil => simp [keyLE] at hbc
      | cons z zs =>
        unfold keyLE at hab hbc ⊢
        by_cases hxy : x < y
        · rw [if_pos hxy] at hab
          by_cases hyz : y < z
          · rw [if_pos (by omega : x < z)]
          · rw [if_neg hyz] at hbc
            by_cases hzy : z < y
            · rw [if_pos hzy] at hbc
              exact Bool.noConfusion hbc
            · rw [if_pos (by omega : x < z)]
        · rw [if_neg hxy] at hab
          by_cases hyx : y < x
          · rw [if_pos hyx] at hab
            exact Bool.noConfusion hab
          · rw [if_neg hyx] at hab
            by_cases hyz : y < z
            · rw [if_pos (by omega : x < z)]
            · rw [if_neg hyz] at hbc
              by_cases hzy : z < y
              · rw [if_pos hzy] at hbc
                exact Bool.noConfusion hbc
              · rw [if_neg hzy] at hbc
                rw [if_neg (by omega : ¬ x < z), if_neg (by omega : ¬ z < x)]
                exact ih ys zs hab hbc

theorem insertByKey_pairwise (alpha : String) (c : Cand) :
    ∀ l : List Cand,
      l.Pairwise (fun a b => keyLE (sortKey alpha a) (sortKey alpha b) = true) →
      (insertByKey alpha c l).Pairwise
        (fun a b => keyLE (sortKey alpha a) (sortKey alpha b) = true) := by
  intro l
  induction l with
  | nil =>
    intro _
    simp [insertByKey]
  | cons d rest ih =>
    intro hp
    rcases List.pairwise_cons.mp hp with ⟨hd, hrest⟩
    unfold insertByKey
    by_cases h : keyLE (sortKey alpha c) (sortKey alpha d) = true
    · rw [if_pos h]
      refine List.pairwise_cons.mpr ⟨?_, hp⟩
      intro x hx
      rcases List.mem_cons.mp hx with rfl | hx2
      · exact h
      · exact keyLE_trans _ _ _ h (hd x hx2)
    · rw [if_neg h]
      refine List.pairwise_cons.mpr ⟨?_, ih hrest⟩
      intro x hx
      rcases (insertByKey_mem alpha c x rest).mp hx with rfl | hx2
      · rcases keyLE_total (sortKey alpha x) (sortKey alpha d) with hh | hh
        · exact absurd hh h
        · exact hh
      · exact hd x hx2

theorem sortByKey_pairwise (alpha : String) :
    ∀ l : List Cand,
      (sortByKey alpha l).Pairwise
        (fun a b => keyLE (sortKey alpha a) (sortKey alpha b) = true) := by
  intro l
  induction l with
  | nil => simp [sortByKey]
  | cons d rest ih =>
    unfold sortByKey at ih ⊢
    simp only [List.foldr_cons]
    exact insertByKey_pairwise alpha d _ ih

/-- The first element of a keyLE-sorted list satisfying a predicate has a
key below the key of every element satisfying the predicate. -/
theorem find_first_min (alpha : String) (p : Cand → Bool) :
    ∀ (l : List Cand) (c : Cand),
      l.Pairwise (fun a b => keyLE (sortKey alpha a) (sortKey alpha b) = true) →
      l.find? p = some c →
      ∀ d ∈ l, p d = true → keyLE (sortKey alpha c) (sortKey alpha d) = true := by
  intro l
  induction l with
  | nil => intro c _ hf; exact Option.noConfusion hf
  | cons a rest ih =>
    intro c hp hf d hd hpd
    rcases List.pairwise_cons.mp hp with ⟨ha, hrest⟩
    by_cases hpa : p a = true
    · rw [List.find?_cons_of_pos _ hpa] at hf
      injection hf with hf
      rw [← hf]
      rcases List.mem_cons.mp hd with rfl | hd2
      · exact keyLE_refl _
      · exact ha d hd2
    · rw [List.find?_cons_of_neg _ (by simpa using hpa)] at hf
      rcases List.mem_cons.mp hd with rfl | hd2
      · exact absurd hpd hpa
      · exact ih c hrest hf d hd2 hpd

theorem find?_eq_some_of_exists (p : Cand → Bool) :
    ∀ (l : List Cand), (∃ x ∈ l, p x = true) → ∃ c, l.find? p = some c := by
  intro l
  induction l with
  | nil =>
    intro h
    rcases h with ⟨x, hx, -⟩
    cases hx
  | cons a rest ih =>
    intro h
    by_cases hpa : p a = true
    · exact ⟨a, List.find?_cons_of_pos _ hpa⟩
    · rw [List.find?_cons_of_neg _ (by simpa using hpa)]
      apply ih
      rcases h with ⟨x, hx, hpx⟩
      rcases List.mem_cons.mp hx with rfl | hx2
      · exact absurd hpx hpa
      · exact ⟨x, hx2, hpx⟩

/-- Characterisation of the random pick (lines 774-782) when some tied
candidate is not No-Confidence: it selects exactly one candidate, a
non-No-Confidence member of the tied set whose random-sort key is minimal
among the non-No-Confidence tied candidates. -/
theorem randomPick_spec (alpha : String) (tied : List Cand)
    (h : ∃ d ∈ tied, isNC d = false) :
    ∃ c, randomPick alpha tied = [c] ∧ c ∈ tied ∧ isNC c = false ∧
      ∀ d ∈ tied, isNC d = false →
        keyLE (sortKey alpha c) (sortKey alpha d) = true := by
  rcases h with ⟨d0, hd0, hnc0⟩
  have hex : ∃ x ∈ sortByKey alpha tied, (!(isNC x)) = true := by
    refine ⟨d0, (sortByKey_mem alpha d0 tied).mpr hd0, ?_⟩
    simp [hnc0]
  rcases find?_eq_some_of_exists _ _ hex with ⟨c, hc⟩
  refine ⟨c, ?_, ?_, ?_, ?_⟩
  · unfold randomPick
    rw [hc]
  · exact (sortByKey_mem alpha c tied).mp (List.mem_of_find?_eq_some hc)
  · have := List.find?_some hc
    simpa using this
  · intro d hd hncd
    exact find_first_min alpha _ (sortByKey alpha tied) c
      (sortByKey_pairwise alpha tied) hc d
      ((sortByKey_mem alpha d tied).mpr hd) (by simpa using hncd)

theorem randomPick_subset (alpha : String) (tied : List Cand) :
    ∀ c ∈ randomPick alpha tied, c ∈ tied := by
  intro c hc
  unfold randomPick at hc
  cases hf : (sortByKey alpha tied).find? (fun c => !(isNC c)) with
  | none =>
    rw [hf] at hc
    exact hc
  | some c' =>
    rw [hf] at hc
    rcases List.mem_singleton.mp hc with rfl
    exact (sortByKey_mem alpha c tied).mp (List.mem_of_find?_eq_some hf)

theorem randomPick_ne_nil (alpha : String) (tied : List Cand) (h : tied ≠ []) :
    randomPick alpha tied ≠ [] := by
  unfold randomPick
  cases hf : (sortByKey alpha tied).find? (fun c => !(isNC c)) with
  | none => exact h
  | some c' => exact List.cons_ne_nil c' []

theorem randomPick_nodup (alpha : String) (tied : List Cand) (h : tied.Nodup) :
    (randomPick alpha tied).Nodup := by
  unfold randomPick
  cases hf : (sortByKey alpha tied).find? (fun c => !(isNC c)) with
  | none => exact h
  | some c' => exact List.nodup_cons.mpr ⟨by simp, List.nodup_nil⟩

/-! Elimination-decision soundness. -/

theorem elimTied0_subset (canElimNC : Bool) (t : VoteTracker) :
    ∀ c ∈ elimTied0 canElimNC t, c ∈ eligibleFor canElimNC t :=
  fewest_subset t _

theorem elimTied0_ne_nil (canElimNC : Bool) (t : VoteTracker)
    (h : eligibleFor canElimNC t ≠ []) : elimTied0 canElimNC t ≠ [] :=
  fewest_ne_nil t _ h

theorem elimTied0_nodup (canElimNC : Bool) (t : VoteTracker)
    (h : (eligibleFor canElimNC t).Nodup) : (elimTied0 canElimNC t).Nodup :=
  fewest_nodup t _ h

theorem elimTied2_subset (canElimNC : Bool) (ex : List Cand)
    (hist : List VoteTracker) (t : VoteTracker) (kept : List Ballot) :
    ∀ c ∈ elimTied2 canElimNC ex hist t kept, c ∈ eligibleFor canElimNC t := by
  intro c hc
  unfold elimTied2 at hc
  have h1 : ∀ d ∈ elimTied1 canElimNC hist t, d ∈ eligibleFor canElimNC t := by
    intro d hd
    unfold elimTied1 at hd
    by_cases h : elimReq0 canElimNC t = true
    · rw [if_pos h] at hd
      exact elimTied0_subset canElimNC t d (backwardNarrow_subset hist _ d hd)
    · rw [if_neg (by simpa using h)] at hd
      exact elimTied0_subset canElimNC t d hd
  by_cases h : elimReq1 canElimNC hist t = true
  · rw [if_pos h] at hc
    exact h1 c (forwardAux_subset canElimNC ex _ _ kept c hc)
  · rw [if_neg (by simpa using h)] at hc
    exact h1 c hc

theorem elimTied2_ne_nil (canElimNC : Bool) (ex : List Cand)
    (hist : List VoteTracker) (t : VoteTracker) (kept : List Ballot)
    (h : eligibleFor canElimNC t ≠ []) :
    elimTied2 canElimNC ex hist t kept ≠ [] := by
  have h1 : elimTied1 canElimNC hist t ≠ [] := by
    unfold elimTied1
    by_cases hr : elimReq0 canElimNC t = true
    · rw [if_pos hr]
      exact backwardNarrow_ne_nil hist _ (elimTied0_ne_nil canElimNC t h)
    · rw [if_neg (by simpa using hr)]
      exact elimTied0_ne_nil canElimNC t h
  unfold elimTied2
  by_cases hr : elimReq1 canElimNC hist t = true
  · rw [if_pos hr]
    exact forwardAux_ne_nil canElimNC ex _ _ kept h1
  · rw [if_neg (by simpa using hr)]
    exact h1

theorem elimTied2_nodup (canElimNC : Bool) (ex : List Cand)
    (hist : List VoteTracker) (t : VoteTracker) (kept : List Ballot)
    (h : (eligibleFor canElimNC t).Nodup) :
    (elimTied2 canElimNC ex hist t kept).Nodup := by
  have h1 : (elimTied1 canElimNC hist t).Nodup := by
    unfold elimTied1
    by_cases hr : elimReq0 canElimNC t = true
    · rw [if_pos hr]
      exact backwardNarrow_nodup hist _ (elimTied0_nodup canElimNC t h)
    · rw [if_neg (by simpa using hr)]
      exact elimTied0_nodup canElimNC t h
  unfold elimTied2
  by_cases hr : elimReq1 canElimNC hist t = true
  · rw [if_pos hr]
    exact forwardAux_nodup canElimNC ex _ _ kept h1
  · rw [if_neg (by simpa using hr)]
    exact h1

/-- Any elimination set chosen by the cascade is a nonempty duplicate-free
subset of the eligible candidates. -/
theorem eliminationChoice_some_sound (cfg : Config) (ex : List Cand)
    (hist : List VoteTracker) (t : VoteTracker) (kept : List Ballot)
    (r : List Cand) (flag : Bool)
    (h : eliminationChoice cfg ex hist t kept = some (r, flag))
    (hne : eligibleFor cfg.canElimNC t ≠ [])
    (hnd : (eligibleFor cfg.canElimNC t).Nodup) :
    (∀ c ∈ r, c ∈ eligibleFor cfg.canElimNC t) ∧ r ≠ [] ∧ r.Nodup := by
  unfold eliminationChoice at h
  by_cases hr : elimReq2 cfg.canElimNC ex hist t kept = true
  · rw [if_pos hr] at h
    by_cases hcr : cfg.canRandom = true
    · rw [if_pos hcr] at h
      injection h with h
      have hpair := congrArg Prod.fst h
      simp only [] at hpair
      rw [← hpair]
      refine ⟨?_, ?_, ?_⟩
      · intro c hc
        exact elimTied2_subset cfg.canElimNC ex hist t kept c
          (randomPick_subset cfg.alpha _ c hc)
      · exact randomPick_ne_nil cfg.alpha _
          (elimTied2_ne_nil cfg.canElimNC ex hist t kept hne)
      · exact randomPick_nodup cfg.alpha _
          (elimTied2_nodup cfg.canElimNC ex hist t kept hnd)
    · rw [if_neg hcr] at h
      exact Option.noConfusion h
  · rw [if_neg hr] at h
    injection h with h
    have hpair := congrArg Prod.fst h
    simp only [] at hpair
    rw [← hpair]
    exact ⟨elimTied2_subset cfg.canElimNC ex hist t kept,
      elimTied2_ne_nil cfg.canElimNC ex hist t kept hne,
      elimTied2_nodup cfg.canElimNC ex hist t kept hnd⟩

/-! Views of the per-round quantities, as used by compute_results. -/

def tallyOf (st : EngineState) : TallyOut :=
  tallyPhase (st.elected ++ st.eliminated) st.active

def keysOf (st : EngineState) : List Cand := (tallyOf st).tracker.keys

def vacantOf (cfg : Config) (st : EngineState) : Nat := cfg.seats - st.elected.length

def thrOf (cfg : Config) (st : EngineState) : ℚ :=
  droopQuota (vacantOf cfg st) (tallyOf st).tracker.votes_cast

def winnersOf (cfg : Config) (st : EngineState) : List Cand :=
  (tallyOf st).tracker.candidatesReachingThreshold (keysOf st) (thrOf cfg st)

def earlyElectOf (st : EngineState) : List Cand :=
  (tallyOf st).tracker.candidatesReachingThreshold (keysOf st)
    ((tallyOf st).tracker.votesFor ncUid)

def histOf (st : EngineState) : List VoteTracker :=
  (tallyOf st).tracker :: (st.rounds.map ERound.tracker).reverse

/-- The state produced when the round ends because no candidates remain. -/
def noCandState (st : EngineState) : EngineState :=
  { st with
    active := (tallyOf st).kept,
    exhausted := st.exhausted ++ (tallyOf st).exh,
    rounds := st.rounds ++ [⟨0, [], [], false, (tallyOf st).tracker⟩] }

/-- The state produced by the early-fill branch (lines 619-634). -/
def earlyFillState (st : EngineState) : EngineState :=
  { st with
    active := (tallyOf st).kept,
    exhausted := st.exhausted ++ (tallyOf st).exh,
    elected := st.elected ++ earlyElectOf st,
    rounds := st.rounds ++ [⟨0, earlyElectOf st, [], false, (tallyOf st).tracker⟩] }

/-- The state produced by the winners branch (lines 646-671). -/
def electState (cfg : Config) (st : EngineState) : EngineState :=
  { st with
    active := (tallyOf st).kept.map
      (scaleBallot (tallyOf st).tracker (thrOf cfg st) (winnersOf cfg st)),
    exhausted := st.exhausted ++ (tallyOf st).exh,
    elected := st.elected ++ winnersOf cfg st,
    rounds := st.rounds ++
      [⟨thrOf cfg st, winnersOf cfg st, [], false, (tallyOf st).tracker⟩] }

/-- The state produced when a required random tie-break is disallowed. -/
def elimHaltState (cfg : Config) (st : EngineState) : EngineState :=
  { st with
    active := (tallyOf st).kept,
    exhausted := st.exhausted ++ (tallyOf st).exh,
    rounds := st.rounds ++ [⟨thrOf cfg st, [], [], false, (tallyOf st).tracker⟩] }

/-- The state produced by an elimination (lines 784-787). -/
def elimState (cfg : Config) (st : EngineState) (toElim : List Cand) (flag : Bool) :
    EngineState :=
  { st with
    active := (tallyOf st).kept,
    exhausted := st.exhausted ++ (tallyOf st).exh,
    eliminated := st.eliminated ++ toElim,
    rounds := st.rounds ++
      [⟨thrOf cfg st, [], toElim, flag, (tallyOf st).tracker⟩] }

theorem runRound_noCand (cfg : Config) (st : EngineState) (h : keysOf st = []) :
    runRound cfg st = .halt (noCandState st) := by
  have h0 : (tallyPhase (st.elected ++ st.eliminated) st.active).tracker.keys.length = 0 := by
    unfold keysOf tallyOf at h
    rw [h]
    rfl
  unfold runRound noCandState tallyOf
  rw [if_pos h0]

theorem runRound_earlyFill (cfg : Config) (st : EngineState)
    (h1 : keysOf st ≠ []) (h2 : (keysOf st).length ≤ vacantOf cfg st) :
    runRound cfg st = .halt (earlyFillState st) := by
  have h0 : ¬ (tallyPhase (st.elected ++ st.eliminated) st.active).tracker.keys.length = 0 := by
    unfold keysOf tallyOf at h1
    simpa [List.length_eq_zero] using h1
  have h2' : (tallyPhase (st.elected ++ st.eliminated) st.active).tracker.keys.length ≤
      cfg.seats - st.elected.length := h2
  unfold runRound earlyFillState earlyElectOf keysOf tallyOf
  rw [if_neg h0, if_pos h2']

theorem runRound_elect (cfg : Config) (st : EngineState)
    (h1 : keysOf st ≠ []) (h2 : ¬ (keysOf st).length ≤ vacantOf cfg st)
    (h3 : winnersOf cfg st ≠ []) :
    runRound cfg st =
      if ncUid ∈ winnersOf cfg st then .halt (electState cfg st)
      else .next (electState cfg st) := by
  have h0 : ¬ (tallyPhase (st.elected ++ st.eliminated) st.active).tracker.keys.length = 0 := by
    unfold keysOf tallyOf at h1
    simpa [List.length_eq_zero] using h1
  have h2' : ¬ (tallyPhase (st.elected ++ st.eliminated) st.active).tracker.keys.length ≤
      cfg.seats - st.elected.length := h2
  have h3' : 0 < ((tallyPhase (st.elected ++ st.eliminated) st.active).tracker.candidatesReachingThreshold
      (tallyPhase (st.elected ++ st.eliminated) st.active).tracker.keys
      (droopQuota (cfg.seats - st.elected.length)
        (tallyPhase (st.elected ++ st.eliminated) st.active).tracker.votes_cast)).length := by
    have := List.length_pos.mpr h3
    unfold winnersOf keysOf thrOf vacantOf tallyOf at this
    exact this
  unfold runRound electState winnersOf keysOf thrOf vacantOf tallyOf
  rw [if_neg h0, if_neg h2', if_pos h3']

theorem runRound_elim (cfg : Config) (st : EngineState)
    (h1 : keysOf st ≠ []) (h2 : ¬ (keysOf st).length ≤ vacantOf cfg st)
    (h3 : winnersOf cfg st = []) :
    runRound cfg st =
      match eliminationChoice cfg (st.elected ++ st.eliminated) (histOf st)
          (tallyOf st).tracker (tallyOf st).kept with
      | none => .halt (elimHaltState cfg st)
      | some (toElim, flag) => .next (elimState cfg st toElim flag) := by
  have h0 : ¬ (tallyPhase (st.elected ++ st.eliminated) st.active).tracker.keys.length = 0 := by
    unfold keysOf tallyOf at h1
    simpa [List.length_eq_zero] using h1
  have h2' : ¬ (tallyPhase (st.elected ++ st.eliminated) st.active).tracker.keys.length ≤
      cfg.seats - st.elected.length := h2
  have h3' : ¬ 0 < ((tallyPhase (st.elected ++ st.eliminated) st.active).tracker.candidatesReachingThreshold
      (tallyPhase (st.elected ++ st.eliminated) st.active).tracker.keys
      (droopQuota (cfg.seats - st.elected.length)
        (tallyPhase (st.elected ++ st.eliminated) st.active).tracker.votes_cast)).length := by
    intro hpos
    have := List.length_pos.mp hpos
    unfold winnersOf keysOf thrOf vacantOf tallyOf at h3
    rw [h3] at this
    exact this rfl
  unfold runRound elimHaltState elimState histOf thrOf vacantOf tallyOf
  rw [if_neg h0, if_neg h2', if_neg h3']

/-! Claim theorems. -/

/-- C6: For every round of every election, the round's VoteTracker
satisfies votes_cast equal to the sum of its per-candidate vote values,
and that total equals the sum of the vote weights of the non-exhausted
ballots counted in that round (exhausted ballots contribute nothing):
stated for the counting pass of an arbitrary round, over any excluded set
and any active ballot list. -/
theorem claim_C6 (ex : List Cand) (ballots : List Ballot) :
    (tallyPhase ex ballots).tracker.votes_cast =
        valSum (tallyPhase ex ballots).tracker.votes_for ∧
      (tallyPhase ex ballots).tracker.votes_cast =
        ((tallyPhase ex ballots).kept.map Ballot.vote_value).sum :=
  tallyPhase_sums ex ballots

def c9Cfg : Config := ⟨1, true, true, "abcdefghijklmnopqrstuvwxyz"⟩

def c9Ballots : List Ballot := List.replicate 10 (mkBallot ["A"])

/-- C9 counterexample: for 10 ballots ranking only A with one seat, the
claim says the single round's quota is 6, but compute_results takes the
early-fill branch (1 remaining candidate is at most 1 vacant seat) before
any quota is computed, so the recorded threshold of the round is 0. -/
theorem claim_C9_counterexample :
    ¬ ((computeResults c9Cfg c9Ballots).rounds.map ERound.threshold = [6]) := by
  with_unfolding_all decide

/-- C9 amended: for the input of 10 identical ballots each ranking only
candidate A, with seats = 1, compute_results returns a Result whose
elected-candidate set is exactly A, whose round list has exactly one
round, and whose single round carries the default quota 0, because the
early-fill path elects A and terminates before the Droop quota is
computed. -/
theorem claim_C9 :
    (computeResults c9Cfg c9Ballots).elected = ["A"] ∧
      (computeResults c9Cfg c9Ballots).rounds.length = 1 ∧
      (computeResults c9Cfg c9Ballots).rounds.map ERound.threshold = [0] := by
  with_unfolding_all decide

/-- C5: In every round that begins with at most as many tallied candidates
as vacant seats, the engine elects exactly the candidates whose tally is
at least the No-Confidence tally (0 when No-Confidence is absent from the
tally) and the election terminates; hence no candidate is elected in this
path with strictly fewer votes than a present No-Confidence tally. -/
theorem claim_C5 (cfg : Config) (st : EngineState)
    (h1 : keysOf st ≠ []) (h2 : (keysOf st).length ≤ vacantOf cfg st) :
    runRound cfg st = .halt (earlyFillState st) ∧
      (∀ c, c ∈ earlyElectOf st ↔ c ∈ keysOf st ∧
        (tallyOf st).tracker.votesFor ncUid ≤ (tallyOf st).tracker.votesFor c) ∧
      (∀ c ∈ earlyElectOf st,
        (tallyOf st).tracker.votesFor ncUid ≤ (tallyOf st).tracker.votesFor c) ∧
      (ncUid ∉ keysOf st → (tallyOf st).tracker.votesFor ncUid = 0) ∧
      (earlyFillState st).elected = st.elected ++ earlyElectOf st := by
  have hmem : ∀ c, c ∈ earlyElectOf st ↔ c ∈ keysOf st ∧
      (tallyOf st).tracker.votesFor ncUid ≤ (tallyOf st).tracker.votesFor c := by
    intro c
    unfold earlyElectOf VoteTracker.candidatesReachingThreshold
    rw [List.mem_filter]
    simp only [decide_eq_true_eq]
  refine ⟨runRound_earlyFill cfg st h1 h2, hmem, ?_, ?_, rfl⟩
  · intro c hc
    exact ((hmem c).mp hc).2
  · intro hnc
    unfold VoteTracker.votesFor
    exact getVal_eq_zero_of_not_mem _ _ hnc

def c5Cfg : Config := ⟨3, true, true, "abcdefghijklmnopqrstuvwxyz"⟩

def c5St : EngineState := initState [mkBallot ["A"], mkBallot ["B"], mkBallot ["NC"]]

theorem claim_C5_witness :
    (keysOf c5St ≠ [] ∧ (keysOf c5St).length ≤ vacantOf c5Cfg c5St) ∧
      runRound c5Cfg c5St = .halt (earlyFillState c5St) :=
  ⟨⟨by with_unfolding_all decide, by with_unfolding_all decide⟩,
    (claim_C5 c5Cfg c5St (by with_unfolding_all decide)
      (by with_unfolding_all decide)).1⟩

/-- C7: The forward projected tie-break stage never changes the engine's
real ballot state: whenever a round takes the elimination path (the only
path on which the forward simulation can run), the active and exhausted
ballot lists of the resulting state are exactly the counting-pass outputs,
whatever the tie-break cascade computed; in this embedding the simulation
(forwardLoop) receives its own copies of the ballots and returns only a
candidate set. -/
theorem claim_C7 (cfg : Config) (st : EngineState)
    (h1 : keysOf st ≠ []) (h2 : ¬ (keysOf st).length ≤ vacantOf cfg st)
    (h3 : winnersOf cfg st = []) :
    (outState (runRound cfg st)).active = (tallyOf st).kept ∧
      (outState (runRound cfg st)).exhausted = st.exhausted ++ (tallyOf st).exh := by
  rw [runRound_elim cfg st h1 h2 h3]
  cases eliminationChoice cfg (st.elected ++ st.eliminated) (histOf st)
      (tallyOf st).tracker (tallyOf st).kept with
  | none => exact ⟨rfl, rfl⟩
  | some p =>
    cases p with
    | mk toElim flag => exact ⟨rfl, rfl⟩

def c7Cfg : Config := ⟨1, true, true, "abcdefghijklmnopqrstuvwxyz"⟩

def c7St : EngineState := initState
  ([mkBallot ["A", "C"], mkBallot ["B", "C"]] ++
    List.replicate 5 (mkBallot ["C"]) ++ List.replicate 5 (mkBallot ["D"]))

theorem claim_C7_witness :
    (keysOf c7St ≠ [] ∧ ¬ (keysOf c7St).length ≤ vacantOf c7Cfg c7St ∧
        winnersOf c7Cfg c7St = []) ∧
      (outState (runRound c7Cfg c7St)).active = (tallyOf c7St).kept :=
  ⟨⟨by with_unfolding_all decide, by with_unfolding_all decide,
      by with_unfolding_all decide⟩,
    (claim_C7 c7Cfg c7St (by with_unfolding_all decide)
      (by with_unfolding_all decide) (by with_unfolding_all decide)).1⟩

/-- C2: In an elimination round with more than one candidate tied for
fewest votes, if the tied set's combined vote value is strictly below the
value of the next-highest non-tied eligible group, then all tied
candidates are eliminated together and no tie-break stage runs (the round
record carries the whole tied set with the random flag unset); otherwise
tiebreak_required is set and the cascade is entered. -/
theorem claim_C2 (cfg : Config) (st : EngineState)
    (h1 : keysOf st ≠ []) (h2 : ¬ (keysOf st).length ≤ vacantOf cfg st)
    (h3 : winnersOf cfg st = [])
    (ht : 1 < (elimTied0 cfg.canElimNC (tallyOf st).tracker).length)
    (hnh : nextHighestGroupOf (tallyOf st).tracker
      (eligibleFor cfg.canElimNC (tallyOf st).tracker)
      (elimTied0 cfg.canElimNC (tallyOf st).tracker) ≠ []) :
    (tiedCombinedOf (tallyOf st).tracker (elimTied0 cfg.canElimNC (tallyOf st).tracker) <
        nextHighestValueOf (tallyOf st).tracker
          (eligibleFor cfg.canElimNC (tallyOf st).tracker)
          (elimTied0 cfg.canElimNC (tallyOf st).tracker) →
      runRound cfg st =
        .next (elimState cfg st (elimTied0 cfg.canElimNC (tallyOf st).tracker) false)) ∧
    (nextHighestValueOf (tallyOf st).tracker
        (eligibleFor cfg.canElimNC (tallyOf st).tracker)
        (elimTied0 cfg.canElimNC (tallyOf st).tracker) ≤
        tiedCombinedOf (tallyOf st).tracker (elimTied0 cfg.canElimNC (tallyOf st).tracker) →
      combinedTiebreakRequired (tallyOf st).tracker
        (eligibleFor cfg.canElimNC (tallyOf st).tracker)
        (elimTied0 cfg.canElimNC (tallyOf st).tracker) = true) := by
  constructor
  · intro hlt
    have hreq0 : elimReq0 cfg.canElimNC (tallyOf st).tracker = false := by
      unfold elimReq0 combinedTiebreakRequired
      rw [if_pos ht]
      simp only [decide_eq_false_iff_not]
      exact not_le.mpr hlt
    have htied1 : elimTied1 cfg.canElimNC (histOf st) (tallyOf st).tracker =
        elimTied0 cfg.canElimNC (tallyOf st).tracker := by
      unfold elimTied1
      rw [hreq0]
      simp
    have hreq1 : elimReq1 cfg.canElimNC (histOf st) (tallyOf st).tracker = false := by
      unfold elimReq1
      rw [hreq0]
      simp
    have htied2 : elimTied2 cfg.canElimNC (st.elected ++ st.eliminated) (histOf st)
        (tallyOf st).tracker (tallyOf st).kept =
        elimTied0 cfg.canElimNC (tallyOf st).tracker := by
      unfold elimTied2
      rw [hreq1, htied1]
      simp
    have hreq2 : elimReq2 cfg.canElimNC (st.elected ++ st.eliminated) (histOf st)
        (tallyOf st).tracker (tallyOf st).kept = false := by
      unfold elimReq2
      rw [hreq1]
      simp
    have hchoice : eliminationChoice cfg (st.elected ++ st.eliminated) (histOf st)
        (tallyOf st).tracker (tallyOf st).kept =
        some (elimTied0 cfg.canElimNC (tallyOf st).tracker, false) := by
      unfold eliminationChoice
      rw [hreq2, htied2]
      simp
    rw [runRound_elim cfg st h1 h2 h3, hchoice]
  · intro hge
    unfold combinedTiebreakRequired
    rw [if_pos ht]
    simp only [decide_eq_true_eq]
    exact hge

def c2Cfg : Config := ⟨1, true, true, "abcdefghijklmnopqrstuvwxyz"⟩

def c2St : EngineState := initState
  ([mkBallot ["A"], mkBallot ["B"]] ++
    List.replicate 5 (mkBallot ["C"]) ++ List.replicate 5 (mkBallot ["D"]))

theorem claim_C2_witness :
    (keysOf c2St ≠ [] ∧ ¬ (keysOf c2St).length ≤ vacantOf c2Cfg c2St ∧
        winnersOf c2Cfg c2St = [] ∧
        1 < (elimTied0 c2Cfg.canElimNC (tallyOf c2St).tracker).length ∧
        tiedCombinedOf (tallyOf c2St).tracker
            (elimTied0 c2Cfg.canElimNC (tallyOf c2St).tracker) <
          nextHighestValueOf (tallyOf c2St).tracker
            (eligibleFor c2Cfg.canElimNC (tallyOf c2St).tracker)
            (elimTied0 c2Cfg.canElimNC (tallyOf c2St).tracker)) ∧
      runRound c2Cfg c2St =
        .next (elimState c2Cfg c2St
          (elimTied0 c2Cfg.canElimNC (tallyOf c2St).tracker) false) :=
  ⟨⟨by with_unfolding_all decide, by with_unfolding_all decide,
      by with_unfolding_all decide, by with_unfolding_all decide,
      by with_unfolding_all decide⟩,
    (claim_C2 c2Cfg c2St (by with_unfolding_all decide)
        (by with_unfolding_all decide) (by with_unfolding_all decide)
        (by with_unfolding_all decide) (by with_unfolding_all decide)).1
      (by with_unfolding_all decide)⟩

theorem backwardNarrow_cons (t : VoteTracker) (rest : List VoteTracker) (tied : List Cand) :
    backwardNarrow (t :: rest) tied =
      if 1 < tied.length then backwardNarrow rest (t.candidatesWithFewestVotes tied)
      else tied := rfl

theorem backwardNarrow_of_le (hist : List VoteTracker) (tied : List Cand)
    (h : ¬ 1 < tied.length) : backwardNarrow hist tied = tied := by
  cases hist with
  | nil => rfl
  | cons t rest =>
    unfold backwardNarrow
    rw [if_neg h]

/-- C3: When the elimination tie survives the combined check, the
backward stage narrows the tied set by walking the recorded round history
from the most recent previous round backward, keeping at each step the
tied candidates with fewest votes in that round's tally and stopping when
one candidate remains or history is exhausted. compute_results actually
starts the walk at the current round (index current_round - 1), but that
first step never narrows the set — every tied candidate holds the same
current-round tally — so the walk it performs equals the walk the claim
describes over the previous rounds only. -/
theorem claim_C3 (cfg : Config) (st : EngineState) :
    backwardNarrow (histOf st) (elimTied0 cfg.canElimNC (tallyOf st).tracker) =
      backwardNarrow ((st.rounds.map ERound.tracker).reverse)
        (elimTied0 cfg.canElimNC (tallyOf st).tracker) := by
  by_cases hlen : 1 < (elimTied0 cfg.canElimNC (tallyOf st).tracker).length
  · have hfix : (tallyOf st).tracker.candidatesWithFewestVotes
        (elimTied0 cfg.canElimNC (tallyOf st).tracker) =
        elimTied0 cfg.canElimNC (tallyOf st).tracker := by
      cases hcase : elimTied0 cfg.canElimNC (tallyOf st).tracker with
      | nil => rfl
      | cons c0 rest =>
        apply fewest_of_all_eq (tallyOf st).tracker _
          ((tallyOf st).tracker.votesFor c0)
        · exact tallyPhase_nonneg _ _ c0
        · intro c hc
          have hc' : c ∈ elimTied0 cfg.canElimNC (tallyOf st).tracker := by
            rw [hcase]
            exact hc
          have hc0 : c0 ∈ elimTied0 cfg.canElimNC (tallyOf st).tracker := by
            rw [hcase]
            exact List.mem_cons_self _ _
          exact fewest_all_eq (tallyOf st).tracker
            (eligibleFor cfg.canElimNC (tallyOf st).tracker) c hc' c0 hc0
    unfold histOf
    rw [backwardNarrow_cons, if_pos hlen, hfix]
  · rw [backwardNarrow_of_le _ _ hlen, backwardNarrow_of_le _ _ hlen]

theorem exists_non_nc_of_nodup (l : List Cand) (hnd : l.Nodup) (hlen : 1 < l.length) :
    ∃ d ∈ l, isNC d = false := by
  cases l with
  | nil => simp at hlen
  | cons a rest =>
    cases rest with
    | nil => simp at hlen
    | cons b rest2 =>
      by_cases ha : isNC a = false
      · exact ⟨a, List.mem_cons_self _ _, ha⟩
      · have ha' : a = ncUid := by
          unfold isNC at ha
          simpa using ha
        have hab : a ≠ b := by
          intro hh
          rcases List.nodup_cons.mp hnd with ⟨hna, -⟩
          exact hna (hh ▸ List.mem_cons_self _ _)
        refine ⟨b, List.mem_cons_of_mem _ (List.mem_cons_self _ _), ?_⟩
        unfold isNC
        simp only [decide_eq_false_iff_not]
        intro hh
        exact hab (by rw [ha', hh])

/-- C4: Whenever an elimination tie survives the backward and forward
stages (tiebreak_required still set): with random tie-breaks allowed, the
single eliminated candidate is the first non-No-Confidence candidate of
the tied set sorted by mapping each uid character to its index in the
tie-break permutation (so its key is minimal among non-No-Confidence tied
candidates), and the round record carries the random-tie-break flag; with
random tie-breaks disallowed, the election halts with no candidate
eliminated in that round. -/
theorem claim_C4 (cfg : Config) (st : EngineState)
    (h1 : keysOf st ≠ []) (h2 : ¬ (keysOf st).length ≤ vacantOf cfg st)
    (h3 : winnersOf cfg st = [])
    (hreq : elimReq2 cfg.canElimNC (st.elected ++ st.eliminated) (histOf st)
      (tallyOf st).tracker (tallyOf st).kept = true) :
    (cfg.canRandom = false →
      runRound cfg st = .halt (elimHaltState cfg st) ∧
        (elimHaltState cfg st).eliminated = st.eliminated) ∧
    (cfg.canRandom = true → ∃ c,
      runRound cfg st = .next (elimState cfg st [c] true) ∧
        c ∈ elimTied2 cfg.canElimNC (st.elected ++ st.eliminated) (histOf st)
          (tallyOf st).tracker (tallyOf st).kept ∧
        isNC c = false ∧
        ∀ d ∈ elimTied2 cfg.canElimNC (st.elected ++ st.eliminated) (histOf st)
            (tallyOf st).tracker (tallyOf st).kept,
          isNC d = false →
            keyLE (sortKey cfg.alpha c) (sortKey cfg.alpha d) = true) := by
  have hlen2 : 1 < (elimTied2 cfg.canElimNC (st.elected ++ st.eliminated) (histOf st)
      (tallyOf st).tracker (tallyOf st).kept).length := by
    unfold elimReq2 at hreq
    rw [Bool.and_eq_true] at hreq
    exact of_decide_eq_true hreq.2
  constructor
  · intro hcr
    have hchoice : eliminationChoice cfg (st.elected ++ st.eliminated) (histOf st)
        (tallyOf st).tracker (tallyOf st).kept = none := by
      unfold eliminationChoice
      rw [if_pos hreq, hcr]
      simp
    rw [runRound_elim cfg st h1 h2 h3, hchoice]
    exact ⟨rfl, rfl⟩
  · intro hcr
    have hnd : (elimTied2 cfg.canElimNC (st.elected ++ st.eliminated) (histOf st)
        (tallyOf st).tracker (tallyOf st).kept).Nodup := by
      apply elimTied2_nodup
      unfold eligibleFor
      exact (tallyPhase_keys_nodup _ _).filter _
    rcases randomPick_spec cfg.alpha _ (exists_non_nc_of_nodup _ hnd hlen2) with
      ⟨c, hpick, hmem, hnc, hmin⟩
    have hchoice : eliminationChoice cfg (st.elected ++ st.eliminated) (histOf st)
        (tallyOf st).tracker (tallyOf st).kept = some ([c], true) := by
      unfold eliminationChoice
      rw [if_pos hreq, hcr]
      simp only [if_true]
      rw [hpick]
    rw [runRound_elim cfg st h1 h2 h3, hchoice]
    exact ⟨c, rfl, hmem, hnc, hmin⟩

def c4Cfg : Config := ⟨1, true, true, "abcdefghijklmnopqrstuvwxyz"⟩

def c4St : EngineState := initState [mkBallot ["a"], mkBallot ["b"]]

theorem claim_C4_witness :
    (keysOf c4St ≠ [] ∧ ¬ (keysOf c4St).length ≤ vacantOf c4Cfg c4St ∧
        winnersOf c4Cfg c4St = [] ∧
        elimReq2 c4Cfg.canElimNC (c4St.elected ++ c4St.eliminated) (histOf c4St)
          (tallyOf c4St).tracker (tallyOf c4St).kept = true) ∧
      ∃ c, runRound c4Cfg c4St = .next (elimState c4Cfg c4St [c] true) ∧
        c ∈ elimTied2 c4Cfg.canElimNC (c4St.elected ++ c4St.eliminated) (histOf c4St)
          (tallyOf c4St).tracker (tallyOf c4St).kept ∧
        isNC c = false ∧
        ∀ d ∈ elimTied2 c4Cfg.canElimNC (c4St.elected ++ c4St.eliminated) (histOf c4St)
            (tallyOf c4St).tracker (tallyOf c4St).kept,
          isNC d = false →
            keyLE (sortKey c4Cfg.alpha c) (sortKey c4Cfg.alpha d) = true :=
  ⟨⟨by with_unfolding_all decide, by with_unfolding_all decide,
      by with_unfolding_all decide, by with_unfolding_all decide⟩,
    (claim_C4 c4Cfg c4St (by with_unfolding_all decide)
        (by with_unfolding_all decide) (by with_unfolding_all decide)
        (by with_unfolding_all decide)).2 rfl⟩

/-- The surplus transfer as the claim states it: a winner's ballots are
scaled by surplus / votes only when surplus is strictly positive and the
winner is not No-Confidence, and winners' ballots are scaled by no other
rule. -/
def c1SpecScaled (t : VoteTracker) (thr : ℚ) (winners : List Cand) (b : Ballot) : Ballot :=
  match b.preferredActive with
  | none => b
  | some c =>
    if c ∈ winners ∧ 0 < t.votesFor c - thr ∧ isNC c = false then
      { b with vote_value := b.vote_value * ((t.votesFor c - thr) / t.votesFor c) }
    else b

/-- Claim C1 as stated, as a predicate on a configuration and a round
state: in a round with winners, each winner joins the elected set and the
ballots kept active leave the round scaled exactly per c1SpecScaled. -/
def C1Statement (cfg : Config) (st : EngineState) : Prop :=
  keysOf st ≠ [] → ¬ (keysOf st).length ≤ vacantOf cfg st → winnersOf cfg st ≠ [] →
    (∀ w ∈ winnersOf cfg st, w ∈ (outState (runRound cfg st)).elected) ∧
      (outState (runRound cfg st)).active =
        (tallyOf st).kept.map
          (c1SpecScaled (tallyOf st).tracker (thrOf cfg st) (winnersOf cfg st))

def c1Cfg : Config := ⟨1, true, true, "abcdefghijklmnopqrstuvwxyz"⟩

def c1St : EngineState := initState
  (List.replicate 4 (mkBallot ["A", "B"]) ++ List.replicate 2 (mkBallot ["B"]))

/-- C1 counterexample: with 4 ballots [A, B] and 2 ballots [B] for one
seat, the quota is 6/2 + 1 = 4 and A reaches it with surplus exactly 0.
The claim says A's ballots are then left unscaled (scaling requires
surplus > 0), but compute_results multiplies them by surplus/votes = 0
unconditionally, so the round leaves A's ballots with weight 0. -/
theorem claim_C1_counterexample : ¬ C1Statement c1Cfg c1St := by
  intro h
  have h2 := (h (by with_unfolding_all decide) (by with_unfolding_all decide)
    (by with_unfolding_all decide)).2
  revert h2
  with_unfolding_all decide

/-- C1 amended: in every round in which at least one candidate's tally
reaches that round's quota, each such winner is added to the elected set,
and every ballot currently assigned to a winner has its vote weight
multiplied by surplus / votes unconditionally — also when the surplus is
0 (making the ballots worthless) and also when the winner is
No-Confidence — the same multiplier being applied to every ballot of that
winner, and winners' ballots are scaled by no other rule, while ballots
not assigned to a winner keep their weight. -/
theorem claim_C1 (cfg : Config) (st : EngineState)
    (h1 : keysOf st ≠ []) (h2 : ¬ (keysOf st).length ≤ vacantOf cfg st)
    (h3 : winnersOf cfg st ≠ []) :
    (∀ w ∈ winnersOf cfg st, w ∈ (outState (runRound cfg st)).elected) ∧
      (outState (runRound cfg st)).active =
        (tallyOf st).kept.map
          (scaleBallot (tallyOf st).tracker (thrOf cfg st) (winnersOf cfg st)) ∧
      (∀ b c, b.preferredActive = some c → c ∈ winnersOf cfg st →
        (scaleBallot (tallyOf st).tracker (thrOf cfg st) (winnersOf cfg st) b).vote_value =
          b.vote_value *
            (((tallyOf st).tracker.votesFor c - thrOf cfg st) /
              (tallyOf st).tracker.votesFor c)) ∧
      (∀ b, (∀ c, b.preferredActive = some c → c ∉ winnersOf cfg st) →
        scaleBallot (tallyOf st).tracker (thrOf cfg st) (winnersOf cfg st) b = b) := by
  have hout : outState (runRound cfg st) = electState cfg st := by
    rw [runRound_elect cfg st h1 h2 h3]
    by_cases hnc : ncUid ∈ winnersOf cfg st
    · rw [if_pos hnc]
      rfl
    · rw [if_neg hnc]
      rfl
  refine ⟨?_, ?_, ?_, ?_⟩
  · intro w hw
    rw [hout]
    exact List.mem_append.mpr (Or.inr hw)
  · rw [hout]
    rfl
  · intro b c hb hc
    simp only [scaleBallot, hb, if_pos hc]
  · intro b hb
    cases hp : b.preferredActive with
    | none => simp only [scaleBallot, hp]
    | some c => simp only [scaleBallot, hp, if_neg (hb c hp)]

theorem claim_C1_witness :
    (keysOf c1St ≠ [] ∧ ¬ (keysOf c1St).length ≤ vacantOf c1Cfg c1St ∧
        winnersOf c1Cfg c1St ≠ []) ∧
      (outState (runRound c1Cfg c1St)).active =
        (tallyOf c1St).kept.map
          (scaleBallot (tallyOf c1St).tracker (thrOf c1Cfg c1St)
            (winnersOf c1Cfg c1St)) :=
  ⟨⟨by with_unfolding_all decide, by with_unfolding_all decide,
      by with_unfolding_all decide⟩,
    (claim_C1 c1Cfg c1St (by with_unfolding_all decide)
        (by with_unfolding_all decide) (by with_unfolding_all decide)).2.1⟩

theorem eliminationChoice_some_subset (cfg : Config) (ex : List Cand)
    (hist : List VoteTracker) (t : VoteTracker) (kept : List Ballot)
    (r : List Cand) (flag : Bool)
    (h : eliminationChoice cfg ex hist t kept = some (r, flag)) :
    ∀ c ∈ r, c ∈ t.keys := by
  have hsub : ∀ c ∈ r, c ∈ eligibleFor cfg.canElimNC t := by
    unfold eliminationChoice at h
    by_cases hr : elimReq2 cfg.canElimNC ex hist t kept = true
    · rw [if_pos hr] at h
      by_cases hcr : cfg.canRandom = true
      · rw [if_pos hcr] at h
        injection h with h
        have hpair := congrArg Prod.fst h
        simp only [] at hpair
        rw [← hpair]
        intro c hc
        exact elimTied2_subset cfg.canElimNC ex hist t kept c
          (randomPick_subset cfg.alpha _ c hc)
      · rw [if_neg hcr] at h
        exact Option.noConfusion h
    · rw [if_neg hr] at h
      injection h with h
      have hpair := congrArg Prod.fst h
      simp only [] at hpair
      rw [← hpair]
      exact elimTied2_subset cfg.canElimNC ex hist t kept
  intro c hc
  exact List.mem_of_mem_filter (hsub c hc)

theorem winnersOf_subset_keys (cfg : Config) (st : EngineState) :
    ∀ c ∈ winnersOf cfg st, c ∈ keysOf st := by
  intro c hc
  unfold winnersOf VoteTracker.candidatesReachingThreshold at hc
  exact List.mem_of_mem_filter hc

theorem earlyElectOf_subset_keys (st : EngineState) :
    ∀ c ∈ earlyElectOf st, c ∈ keysOf st := by
  intro c hc
  unfold earlyElectOf VoteTracker.candidatesReachingThreshold at hc
  exact List.mem_of_mem_filter hc

theorem keysOf_fresh (st : EngineState) :
    ∀ c ∈ keysOf st, c ∉ st.elected ++ st.eliminated :=
  tallyPhase_keys_fresh (st.elected ++ st.eliminated) st.active

/-- C10: Throughout every run, the elected and eliminated sets remain
disjoint; once a candidate is in either set it receives a zero tally in
every later round (its ballots are resolved past it before votes are
cast) and it is never elected or eliminated a second time. Stated as the
inductive step: any round run from a state with disjoint sets yields a
zero tally for all previously elected or eliminated candidates, a state
with disjoint sets, and a round record that elects or eliminates only
fresh candidates. -/
theorem claim_C10 (cfg : Config) (st : EngineState)
    (hdisj : ∀ c ∈ st.elected, c ∉ st.eliminated) :
    (∀ c ∈ st.elected ++ st.eliminated, (tallyOf st).tracker.votesFor c = 0) ∧
      (∀ c ∈ (outState (runRound cfg st)).elected,
        c ∉ (outState (runRound cfg st)).eliminated) ∧
      (∃ rec, (outState (runRound cfg st)).rounds = st.rounds ++ [rec] ∧
        ∀ c ∈ st.elected ++ st.eliminated, c ∉ rec.elected ∧ c ∉ rec.eliminated) := by
  have hfresh : ∀ c ∈ keysOf st, c ∉ st.elected ++ st.eliminated := keysOf_fresh st
  have hzero : ∀ c ∈ st.elected ++ st.eliminated, (tallyOf st).tracker.votesFor c = 0 := by
    intro c hc
    have hnk : c ∉ keysOf st := fun hk => hfresh c hk hc
    unfold VoteTracker.votesFor
    exact getVal_eq_zero_of_not_mem _ _ hnk
  refine ⟨hzero, ?_⟩
  by_cases hk : keysOf st = []
  · rw [runRound_noCand cfg st hk]
    refine ⟨hdisj, ⟨0, [], [], false, (tallyOf st).tracker⟩, rfl, ?_⟩
    intro c _
    exact ⟨List.not_mem_nil c, List.not_mem_nil c⟩
  · by_cases hef : (keysOf st).length ≤ vacantOf cfg st
    · rw [runRound_earlyFill cfg st hk hef]
      refine ⟨?_, ⟨0, earlyElectOf st, [], false, (tallyOf st).tracker⟩, rfl, ?_⟩
      · intro c hc
        rcases List.mem_append.mp hc with hc1 | hc1
        · exact hdisj c hc1
        · intro hcel
          exact hfresh c (earlyElectOf_subset_keys st c hc1)
            (List.mem_append.mpr (Or.inr hcel))
      · intro c hc
        refine ⟨?_, List.not_mem_nil c⟩
        intro hcel
        exact hfresh c (earlyElectOf_subset_keys st c hcel) hc
    · by_cases hw : winnersOf cfg st = []
      · rw [runRound_elim cfg st hk hef hw]
        cases hch : eliminationChoice cfg (st.elected ++ st.eliminated) (histOf st)
            (tallyOf st).tracker (tallyOf st).kept with
        | none =>
          refine ⟨hdisj, ⟨thrOf cfg st, [], [], false, (tallyOf st).tracker⟩, rfl, ?_⟩
          intro c _
          exact ⟨List.not_mem_nil c, List.not_mem_nil c⟩
        | some p =>
          rcases p with ⟨toElim, flag⟩
          have htsub : ∀ c ∈ toElim, c ∈ keysOf st :=
            eliminationChoice_some_subset cfg _ _ _ _ toElim flag hch
          refine ⟨?_, ⟨thrOf cfg st, [], toElim, flag, (tallyOf st).tracker⟩, rfl, ?_⟩
          · intro c hc
            intro hcel
            rcases List.mem_append.mp hcel with hc1 | hc1
            · exact hdisj c hc hc1
            · exact hfresh c (htsub c hc1) (List.mem_append.mpr (Or.inl hc))
          · intro c hc
            refine ⟨List.not_mem_nil c, ?_⟩
            intro hcel
            exact hfresh c (htsub c hcel) hc
      · have hout : outState (runRound cfg st) = electState cfg st := by
          rw [runRound_elect cfg st hk hef hw]
          by_cases hnc : ncUid ∈ winnersOf cfg st
          · rw [if_pos hnc]
            rfl
          · rw [if_neg hnc]
            rfl
        rw [hout]
        refine ⟨?_, ⟨thrOf cfg st, winnersOf cfg st, [], false, (tallyOf st).tracker⟩,
          rfl, ?_⟩
        · intro c hc
          rcases List.mem_append.mp hc with hc1 | hc1
          · exact hdisj c hc1
          · intro hcel
            exact hfresh c (winnersOf_subset_keys cfg st c hc1)
              (List.mem_append.mpr (Or.inr hcel))
        · intro c hc
          refine ⟨?_, List.not_mem_nil c⟩
          intro hcel
          exact hfresh c (winnersOf_subset_keys cfg st c hcel) hc

def c10Cfg : Config := ⟨2, true, true, "abcdefghijklmnopqrstuvwxyz"⟩

def c10St : EngineState :=
  { active := [mkBallot ["B", "C"], mkBallot ["C"], mkBallot ["C"]],
    exhausted := [],
    elected := ["A"],
    eliminated := ["D"],
    rounds := [] }

theorem claim_C10_witness :
    (∀ c ∈ c10St.elected, c ∉ c10St.eliminated) ∧
      ∀ c ∈ c10St.elected ++ c10St.eliminated,
        (tallyOf c10St).tracker.votesFor c = 0 :=
  ⟨by with_unfolding_all decide,
    (claim_C10 c10Cfg c10St (by with_unfolding_all decide)).1⟩

/-! Termination: every continuing round adds a fresh candidate to the
elected or eliminated set, all inside the finite candidate universe. -/

/-- Invariant carried by compute_results across rounds, with U the list of
distinct candidates on the initial ballots. -/
def InvC8 (U : List Cand) (st : EngineState) : Prop :=
  (st.elected ++ st.eliminated).Nodup ∧
    (∀ c ∈ st.elected ++ st.eliminated, c ∈ U) ∧
    (∀ b ∈ st.active, ∀ c ∈ b.candidates, c ∈ U)

theorem length_le_of_nodup_subset {l U : List Cand} (hnd : l.Nodup)
    (hsub : ∀ c ∈ l, c ∈ U) : l.length ≤ U.length := by
  have h1 : l.toFinset.card = l.length := List.toFinset_card_of_nodup hnd
  have h2 : l.toFinset ⊆ U.toFinset := by
    intro x hx
    rw [List.mem_toFinset] at hx ⊢
    exact hsub x hx
  calc l.length = l.toFinset.card := h1.symm
    _ ≤ U.toFinset.card := Finset.card_le_card h2
    _ ≤ U.length := List.toFinset_card_le U

theorem scaleBallot_candidates (t : VoteTracker) (thr : ℚ) (winners : List Cand)
    (b : Ballot) : (scaleBallot t thr winners b).candidates = b.candidates := by
  cases hp : b.preferredActive with
  | none => simp only [scaleBallot, hp]
  | some c =>
    by_cases hc : c ∈ winners
    · simp only [scaleBallot, hp, if_pos hc]
    · simp only [scaleBallot, hp, if_neg hc]

theorem winnersOf_nodup (cfg : Config) (st : EngineState) :
    (winnersOf cfg st).Nodup :=
  (tallyPhase_keys_nodup _ _).filter _

theorem eligibleFor_ne_nil (canElimNC : Bool) (t : VoteTracker)
    (hnd : t.keys.Nodup) (hlen : 2 ≤ t.keys.length) :
    eligibleFor canElimNC t ≠ [] := by
  intro hnil
  have hall : ∀ c ∈ t.keys, ¬ ((canElimNC || !(isNC c)) = true) := by
    intro c hc
    exact List.filter_eq_nil_iff.mp hnil c hc
  have hnc : ∀ c ∈ t.keys, c = ncUid := by
    intro c hc
    have := hall c hc
    simp only [Bool.or_eq_true, Bool.not_eq_true', not_or] at this
    have h2 := this.2
    unfold isNC at h2
    simpa using h2
  cases hks : t.keys with
  | nil => rw [hks] at hlen; simp at hlen
  | cons a rest =>
    cases rest with
    | nil => rw [hks] at hlen; simp at hlen
    | cons b rest2 =>
      have ha : a = ncUid := hnc a (by rw [hks]; exact List.mem_cons_self _ _)
      have hb : b = ncUid := hnc b
        (by rw [hks]; exact List.mem_cons_of_mem _ (List.mem_cons_self _ _))
      rw [hks] at hnd
      rcases List.nodup_cons.mp hnd with ⟨hna, -⟩
      exact hna (by rw [ha, ← hb]; exact List.mem_cons_self _ _)

theorem keysOf_subset_universe (st : EngineState) (U : List Cand)
    (hU : ∀ b ∈ st.active, ∀ c ∈ b.candidates, c ∈ U) :
    ∀ c ∈ keysOf st, c ∈ U := by
  intro c hc
  rcases tallyPhase_keys_universe (st.elected ++ st.eliminated) st.active c hc with
    ⟨b, hb, hcb⟩
  exact hU b hb c hcb

theorem kept_candidates_subset_universe (st : EngineState) (U : List Cand)
    (hU : ∀ b ∈ st.active, ∀ c ∈ b.candidates, c ∈ U) :
    ∀ b' ∈ (tallyOf st).kept, ∀ c ∈ b'.candidates, c ∈ U := by
  intro b' hb' c hc
  rcases tallyPhase_kept_candidates (st.elected ++ st.eliminated) st.active b' hb' with
    ⟨b, hb, heq⟩
  exact hU b hb c (by rw [← heq]; exact hc)

theorem runRound_next_growth (cfg : Config) (U : List Cand) (st st' : EngineState)
    (hInv : InvC8 U st) (hseats : st.elected.length < cfg.seats)
    (h : runRound cfg st = .next st') :
    InvC8 U st' ∧
      st.elected.length + st.eliminated.length + 1 ≤
        st'.elected.length + st'.eliminated.length := by
  rcases hInv with ⟨hnd, hmemU, hballs⟩
  have hfresh : ∀ c ∈ keysOf st, c ∉ st.elected ++ st.eliminated := keysOf_fresh st
  have hkeysU : ∀ c ∈ keysOf st, c ∈ U := keysOf_subset_universe st U hballs
  have hkeptU : ∀ b' ∈ (tallyOf st).kept, ∀ c ∈ b'.candidates, c ∈ U :=
    kept_candidates_subset_universe st U hballs
  by_cases hk : keysOf st = []
  · rw [runRound_noCand cfg st hk] at h
    exact Outcome.noConfusion h
  · by_cases hef : (keysOf st).length ≤ vacantOf cfg st
    · rw [runRound_earlyFill cfg st hk hef] at h
      exact Outcome.noConfusion h
    · have hklen : 2 ≤ (keysOf st).length := by
        have hv : 1 ≤ vacantOf cfg st := by
          unfold vacantOf
          omega
        omega
      by_cases hw : winnersOf cfg st = []
      · rw [runRound_elim cfg st hk hef hw] at h
        cases hch : eliminationChoice cfg (st.elected ++ st.eliminated) (histOf st)
            (tallyOf st).tracker (tallyOf st).kept with
        | none =>
          rw [hch] at h
          exact Outcome.noConfusion h
        | some p =>
          rcases p with ⟨toElim, flag⟩
          rw [hch] at h
          injection h with h
          have hknd : (tallyOf st).tracker.keys.Nodup := tallyPhase_keys_nodup _ _
          have helig : eligibleFor cfg.canElimNC (tallyOf st).tracker ≠ [] :=
            eligibleFor_ne_nil cfg.canElimNC (tallyOf st).tracker hknd hklen
          have heligd : (eligibleFor cfg.canElimNC (tallyOf st).tracker).Nodup :=
            hknd.filter _
          rcases eliminationChoice_some_sound cfg _ _ _ _ toElim flag hch helig heligd
            with ⟨hsub, hne, htnd⟩
          have htk : ∀ c ∈ toElim, c ∈ keysOf st := by
            intro c hc
            exact List.mem_of_mem_filter (hsub c hc)
          rw [← h]
          refine ⟨⟨?_, ?_, ?_⟩, ?_⟩
          · show (st.elected ++ (st.eliminated ++ toElim)).Nodup
            rw [← List.append_assoc]
            rw [List.nodup_append]
            refine ⟨hnd, htnd, ?_⟩
            intro a ha hat
            exact hfresh a (htk a hat) ha
          · intro c hc
            show c ∈ U
            rcases List.mem_append.mp hc with hc1 | hc1
            · exact hmemU c (List.mem_append.mpr (Or.inl hc1))
            · rcases List.mem_append.mp hc1 with hc2 | hc2
              · exact hmemU c (List.mem_append.mpr (Or.inr hc2))
              · exact hkeysU c (htk c hc2)
          · intro b hb c hc
            exact hkeptU b hb c hc
          · show st.elected.length + st.eliminated.length + 1 ≤
              st.elected.length + (st.eliminated ++ toElim).length
            rw [List.length_append]
            have := List.length_pos.mpr hne
            omega
      · rw [runRound_elect cfg st hk hef hw] at h
        by_cases hnc : ncUid ∈ winnersOf cfg st
        · rw [if_pos hnc] at h
          exact Outcome.noConfusion h
        · rw [if_neg hnc] at h
          injection h with h
          have hwnd : (winnersOf cfg st).Nodup := winnersOf_nodup cfg st
          rw [← h]
          refine ⟨⟨?_, ?_, ?_⟩, ?_⟩
          · show ((st.elected ++ winnersOf cfg st) ++ st.eliminated).Nodup
            have hperm : ((st.elected ++ st.eliminated) ++ winnersOf cfg st).Perm
                ((st.elected ++ winnersOf cfg st) ++ st.eliminated) := by
              rw [List.append_assoc, List.append_assoc]
              exact List.Perm.append_left _ List.perm_append_comm
            apply hperm.nodup
            rw [List.nodup_append]
            refine ⟨hnd, hwnd, ?_⟩
            intro a ha hat
            exact hfresh a (winnersOf_subset_keys cfg st a hat) ha
          · intro c hc
            show c ∈ U
            rcases List.mem_append.mp hc with hc1 | hc1
            · rcases List.mem_append.mp hc1 with hc2 | hc2
              · exact hmemU c (List.mem_append.mpr (Or.inl hc2))
              · exact hkeysU c (winnersOf_subset_keys cfg st c hc2)
            · exact hmemU c (List.mem_append.mpr (Or.inr hc1))
          · intro b hb c hc
            show c ∈ U
            rcases List.mem_map.mp hb with ⟨b0, hb0, hbeq⟩
            rw [← hbeq, scaleBallot_candidates] at hc
            exact hkeptU b0 hb0 c hc
          · show st.elected.length + st.eliminated.length + 1 ≤
              (st.elected ++ winnersOf cfg st).length + st.eliminated.length
            rw [List.length_append]
            have := List.length_pos.mpr hw
            omega

theorem runRound_rounds_length (cfg : Config) (st : EngineState) :
    (outState (runRound cfg st)).rounds.length = st.rounds.length + 1 := by
  by_cases hk : keysOf st = []
  · rw [runRound_noCand cfg st hk]
    simp [outState, noCandState]
  · by_cases hef : (keysOf st).length ≤ vacantOf cfg st
    · rw [runRound_earlyFill cfg st hk hef]
      simp [outState, earlyFillState]
    · by_cases hw : winnersOf cfg st = []
      · rw [runRound_elim cfg st hk hef hw]
        cases eliminationChoice cfg (st.elected ++ st.eliminated) (histOf st)
            (tallyOf st).tracker (tallyOf st).kept with
        | none => simp [outState, elimHaltState]
        | some p =>
          rcases p with ⟨toElim, flag⟩
          simp [outState, elimState]
      · rw [runRound_elect cfg st hk hef hw]
        by_cases hnc : ncUid ∈ winnersOf cfg st
        · rw [if_pos hnc]
          simp [outState, electState]
        · rw [if_neg hnc]
          simp [outState, electState]

theorem computeLoop_total (cfg : Config) (U : List Cand) :
    ∀ (fuel : Nat) (st : EngineState), InvC8 U st →
      U.length + 1 ≤ fuel + st.elected.length + st.eliminated.length →
      ∃ st', computeLoop cfg fuel st = some st' ∧
        st'.rounds.length ≤ st.rounds.length + fuel := by
  intro fuel
  induction fuel with
  | zero =>
    intro st hInv hfuel
    exfalso
    have hlen : (st.elected ++ st.eliminated).length ≤ U.length :=
      length_le_of_nodup_subset hInv.1 hInv.2.1
    rw [List.length_append] at hlen
    omega
  | succ n ih =>
    intro st hInv hfuel
    unfold computeLoop
    by_cases hseats : st.elected.length < cfg.seats
    · rw [if_pos hseats]
      cases hr : runRound cfg st with
      | halt st1 =>
        refine ⟨st1, rfl, ?_⟩
        have := runRound_rounds_length cfg st
        rw [hr] at this
        simp only [outState] at this
        omega
      | next st1 =>
        rcases runRound_next_growth cfg U st st1 hInv hseats hr with ⟨hInv1, hgrow⟩
        have hrounds : st1.rounds.length = st.rounds.length + 1 := by
          have := runRound_rounds_length cfg st
          rw [hr] at this
          simpa only [outState] using this
        rcases ih st1 hInv1 (by omega) with ⟨st', hst', hlen⟩
        refine ⟨st', hst', ?_⟩
        omega
    · rw [if_neg hseats]
      exact ⟨st, rfl, by omega⟩

/-- C8: For every configuration and finite ballot list, the while loop of
compute_results terminates: run with fuel one more than the number of
distinct candidates on the ballots, it completes (each non-final round
adds at least one fresh candidate to the elected or eliminated set, all
within the candidate universe), and the number of recorded rounds is
bounded by that same quantity. -/
theorem claim_C8 (cfg : Config) (ballots : List Ballot) :
    ∃ st', computeLoop cfg ((universeOf ballots).length + 1) (initState ballots) =
        some st' ∧
      st'.rounds.length ≤ (universeOf ballots).length + 1 := by
  have hInv : InvC8 (universeOf ballots) (initState ballots) := by
    refine ⟨List.nodup_nil, ?_, ?_⟩
    · intro c hc
      cases hc
    · intro b hb c hc
      unfold universeOf
      rw [List.mem_dedup]
      rw [List.mem_flatten]
      exact ⟨b.candidates, List.mem_map_of_mem _ hb, hc⟩
  rcases computeLoop_total cfg (universeOf ballots)
      ((universeOf ballots).length + 1) (initState ballots) hInv (by simp [initState])
    with ⟨st', hst', hlen⟩
  exact ⟨st', hst', by simpa [initState] using hlen⟩
